import Mathlib

/-!
Verification of the `randomize` utility (reservoir sampling over delimited
records) against its design specification.

The development shallowly embeds the relevant C functions:

* the driver's Fisher-Yates/reservoir sampling loop and its option handling
  (`unnamed/part_003`, second `main`; `unnamed/part_004`, second `main`);
* the record source `rec_next` with its buffered matching loop, memory-budget
  retention decision and `rec_free` credit (`unnamed/part_001`);
* the output template finite-state machine `rec_write_raw`
  (`unnamed/part_001`).

Machine integers are modelled as `Nat`/`Int`; `errno` values are `Int`
constants.  External effects (the PCRE matcher, `read`/`write`/`malloc`
outcomes) are inputs: a matcher oracle and finite behaviour scripts.
-/

namespace Randomize

open scoped List

/-! ### Platform constants (LP64, as in the original build) -/

/-- `EINVAL` errno value. -/
def EINVAL : ℤ := 22
/-- `EINTR` errno value. -/
def EINTR : ℤ := 4
/-- `EAGAIN` errno value. -/
def EAGAIN : ℤ := 11
/-- `ENOMEM` errno value. -/
def ENOMEM : ℤ := 12
/-- `INT_MAX` on the target platform. -/
def INT_MAX : ℤ := 2 ^ 31 - 1
/-- `INT_MIN` on the target platform. -/
def INT_MIN : ℤ := -(2 ^ 31)
/-- `UINT32_MAX`. -/
def UINT32_MAX : ℕ := 2 ^ 32 - 1
/-- stdio `BUFSIZ` (BSD value). -/
def cBUFSIZ : ℕ := 1024

/-- The `MAX` macro of `unnamed/part_001` line 39 is
`#define MAX(x, y) ((x) < (y) ? (x) : (y))`, which actually computes the
minimum.  We embed the macro as written. -/
def cMAX (x y : ℕ) : ℕ := if x < y then x else y

/-! ### `strtonum` at the `-n` option site

`unnamed/part_003` lines 404-408 (likewise `part_004` line 396):
`nrecords = strtonum(optarg, 1, UINT32_MAX - 1, &errstr); if (errstr)
errx(1, "number of records is %s: %s", errstr, optarg);`.
`strtonum(3)` is libc: given the numeric value of the string it yields the
value if it lies in `[minval, maxval]` and otherwise reports "too small" /
"too large"; any report makes `main` abort via `errx(1, ...)`. -/

inductive StrtonumRes where
  | ok (v : ℤ)
  | tooSmall
  | tooLarge
  deriving DecidableEq, Repr

/-- `strtonum(3)` on an already-parsed numeric value. -/
def strtonumVal (v minval maxval : ℤ) : StrtonumRes :=
  if v < minval then .tooSmall
  else if maxval < v then .tooLarge
  else .ok v

/-- Parsing the `-n` argument value, per `part_003` line 406:
`strtonum(optarg, 1, UINT32_MAX - 1, &errstr)`.  A non-`ok` result is fatal
(`errx(1, ...)`, exit status 1). -/
def parseNOption (v : ℤ) : StrtonumRes :=
  strtonumVal v 1 ((UINT32_MAX : ℤ) - 1)

/-! ### Memory budget (`part_001` `rec_next` lines 419-439, `rec_free`
lines 776-784)

`REC_ESTIMATED_MEMORY_USE(rec)` is
`REC_LEN(rec) + 2 * sizeof(void *) + 2 * sizeof(size_t)` (line 98).

`rec_next` decrements the shared counter `*memory_cache` by exactly this
estimate, and only in the branch guarded by
`*memory_cache >= REC_ESTIMATED_MEMORY_USE(rec)` (line 422); `rec_free`
increments it by the same estimate, and only for a record that was retained
in memory (`!REC_IS_OFFSET(rec)`, line 779).

A run of the program is abstracted as the sequence of budget-relevant events:
each successful `rec_next` either retains its record (guarded decrement),
or leaves the counter alone (offset reference); each `rec_free` of a retained
record credits the estimate back, exactly once per retained record. -/

/-- `REC_ESTIMATED_MEMORY_USE` for a record of length `len` (LP64:
`sizeof(void *) = sizeof(size_t) = 8`). -/
def recEstMemUse (len : ℕ) : ℕ := len + 2 * 8 + 2 * 8

inductive BudgetEvent where
  | retain (len : ℕ)   -- `rec_next` keeps the record bytes in memory
  | bypass             -- `rec_next` references the record by offset
  | free (len : ℕ)     -- `rec_free` of a retained record of length `len`
  deriving DecidableEq, Repr

/-- Budget state: the shared counter `*memory_cache` (as `ℤ`, to make
non-negativity a statement rather than a typing artifact) together with the
multiset of lengths of currently retained (not yet freed) records. -/
structure BudgetState where
  cache : ℤ
  live : Multiset ℕ
  deriving DecidableEq

/-- Effect of one event on the budget state, mirroring the two source sites:
retention subtracts the estimate (line 434), `rec_free` adds it back
(line 781). -/
def budgetStep (s : BudgetState) : BudgetEvent → BudgetState
  | .retain len => ⟨s.cache - recEstMemUse len, len ::ₘ s.live⟩
  | .bypass => s
  | .free len => ⟨s.cache + recEstMemUse len, s.live.erase len⟩

def budgetRun (s : BudgetState) : List BudgetEvent → BudgetState
  | [] => s
  | e :: es => budgetRun (budgetStep s e) es

/-- Validity of an event sequence from a given state: a retention only
happens under the source guard `*memory_cache >= REC_ESTIMATED_MEMORY_USE`
(line 422), and a `rec_free` credit only happens for a record that is
currently retained (each retained record is freed at most once; `rec_free`
checks `!REC_IS_OFFSET(rec)`). -/
def budgetOk (s : BudgetState) : List BudgetEvent → Bool
  | [] => true
  | .retain len :: es =>
      decide ((recEstMemUse len : ℤ) ≤ s.cache) && budgetOk (budgetStep s (.retain len)) es
  | .bypass :: es => budgetOk s es
  | .free len :: es => decide (len ∈ s.live) && budgetOk (budgetStep s (.free len)) es

/-- Total estimated footprint of the currently retained records. -/
def liveFootprint (live : Multiset ℕ) : ℤ :=
  ((live.map fun len => (recEstMemUse len : ℤ)).sum)

/-! ### The driver loop's reaction to `rec_next` outcomes

`part_003` second `main`, lines 557-577: after `rec_next(rfd, ...) != 0`,
`errno == EAGAIN || errno == EINTR` retries the call (`goto try_again`),
`errno == 0` is end of stream (`break`), anything else is fatal
(`errx(1, ...)`). -/

inductive LoopAct where
  | retry
  | eofBreak
  | fatal
  | proceed
  deriving DecidableEq, Repr

inductive RecNextOutcome where
  | ok (len : ℤ)
  | err (e : ℤ)
  deriving DecidableEq, Repr

/-- Reaction of `part_003`'s sampling loop (lines 557-577) to one
`rec_next` outcome. -/
def mainDispatch : RecNextOutcome → LoopAct
  | .ok _ => .proceed
  | .err e =>
      if e = EAGAIN ∨ e = EINTR then .retry
      else if e = 0 then .eofBreak
      else .fatal

/-! ### Zero-length record rejection (`part_004` second `main`)

`part_004` lines 503-522: a failed `rec_next` is dispatched on `errno`
(EOF / transient retry / fatal), and a successful `rec_next` whose record
length is zero is fatal: `if (rec[r].len == 0)
errx(1, "Regular expression matched a zero-length record");` (lines 518-519).
Only after that check is the record counted (`last[f_no] = r; ++rec_no`). -/

inductive P4Act where
  | fatalZeroLength
  | fatalRead
  | retry
  | eofBreak
  | store (len : ℤ)
  deriving DecidableEq, Repr

/-- Per-record dispatch of `part_004`'s sampling loop, lines 503-522. -/
def p4Dispatch : RecNextOutcome → P4Act
  | .err e =>
      if e = 0 then .eofBreak
      else if e = EAGAIN ∨ e = EINTR then .retry
      else .fatalRead
  | .ok len => if len = 0 then .fatalZeroLength else .store len

inductive P4Res where
  | aborted
  | finished (stored : List ℤ)
  deriving DecidableEq, Repr

/-- The sampling loop of `part_004` run against a script of successive
`rec_next` outcomes: fatal dispatches abort the pass (`errx`), retries
consume the next outcome, EOF finishes, and stored records accumulate. -/
def p4Loop : List RecNextOutcome → List ℤ → P4Res
  | [], acc => .finished acc
  | o :: rest, acc =>
      match p4Dispatch o with
      | .fatalZeroLength => .aborted
      | .fatalRead => .aborted
      | .retry => p4Loop rest acc
      | .eofBreak => .finished acc
      | .store len => p4Loop rest (acc ++ [len])

/-! ### The reservoir sampling loop (`part_003` second `main`, lines 507-590)

The loop body, for the record with running index `i` (the current `rec_no`)
and the draw `r = random_uniform(rec_no + 1)` (uniform on `{0, ..., i}`):

```
if (r < MIN(rec_no, nrecords)) {
    if (rec_no < nrecords) rec[rec_no] = rec[r];
    else                   to_free = rec[r];
}
rec_next(rfd, r < nrecords ? &rec[r] : NULL);   /* success path */
```

So with `A` the logical array `rec[0 .. MIN(rec_no, nrecords))` and `x` the
new record: if `i < nrecords` the array grows by one — slot `i` receives the
old `A[r]` (or, when `r = i`, directly the new record) and slot `r` receives
the new record; if `i ≥ nrecords` and `r < nrecords` the old `A[r]` is
evicted and slot `r` receives the new record; if `i ≥ nrecords` and
`r ≥ nrecords` the new record is read into `NULL` and discarded. -/

/-- One iteration of the sampling loop of `part_003` (success path),
acting on the logical array `A = rec[0 .. min i nrecords)`. -/
def resStep (nrecords : ℕ) (A : List α) (i : ℕ) (x : α) (r : ℕ) : List α :=
  if i < nrecords then (A ++ [A.getD r x]).set r x
  else if r < nrecords then A.set r x
  else A

/-- The sampling loop from array `A` at running index `i`, consuming
record/draw pairs. -/
def resRunAux (nrecords : ℕ) (A : List α) (i : ℕ) : List (α × ℕ) → List α
  | [] => A
  | (x, r) :: rest => resRunAux nrecords (resStep nrecords A i x r) (i + 1) rest

/-- The whole sampling pass over records `xs` (records from all sources, in
input order — EOF in one source moves to the next and the index keeps
counting) with draws `rs`. -/
def resRun (nrecords : ℕ) (xs : List α) (rs : List ℕ) : List α :=
  resRunAux nrecords [] 0 (xs.zip rs)

/-- The pass with each record identified by its running index. -/
def resRunIdx (nrecords n : ℕ) (rs : List ℕ) : List ℕ :=
  resRun nrecords (List.range n) rs

/-- The output phase, `part_003` lines 594-614: records
`rec[0 .. MIN(rec_no, nrecords))` are written out in array order. -/
def mainOutput (nrecords : ℕ) (xs : List α) (rs : List ℕ) : List α :=
  (resRun nrecords xs rs).take (min xs.length nrecords)

/-- All draw sequences for `n` records: the draw for record `i` is uniform
on `{0, ..., i}` (`random_uniform(rec_no + 1)`, line 533). -/
def drawSeqs : ℕ → Finset (List ℕ)
  | 0 => {[]}
  | n + 1 => ((drawSeqs n) ×ˢ Finset.range (n + 1)).image fun p => p.1 ++ [p.2]

/-! #### Basic facts about draw sequences and the sampling fold -/

theorem length_of_mem_drawSeqs : ∀ {n : ℕ} {rs : List ℕ}, rs ∈ drawSeqs n → rs.length = n := by
  intro n
  induction n with
  | zero => intro rs h; simp [drawSeqs] at h; simp [h]
  | succ n ih =>
    intro rs h
    simp only [drawSeqs, Finset.mem_image, Finset.mem_product] at h
    obtain ⟨⟨rs', r⟩, ⟨h1, _⟩, rfl⟩ := h
    simp [ih h1]

theorem mem_drawSeqs_succ {n : ℕ} {rs : List ℕ} :
    rs ∈ drawSeqs (n + 1) ↔ ∃ rs' r, rs' ∈ drawSeqs n ∧ r ≤ n ∧ rs = rs' ++ [r] := by
  simp only [drawSeqs, Finset.mem_image, Finset.mem_product, Finset.mem_range, Prod.exists]
  constructor
  · rintro ⟨rs', r, ⟨h1, h2⟩, rfl⟩
    exact ⟨rs', r, h1, Nat.lt_succ_iff.mp h2, rfl⟩
  · rintro ⟨rs', r, h1, h2, rfl⟩
    exact ⟨rs', r, ⟨h1, Nat.lt_succ_iff.mpr h2⟩, rfl⟩

/-- Appending one draw is injective on draw-sequence/draw pairs. -/
theorem drawSeqs_snoc_injOn (n : ℕ) :
    Set.InjOn (fun p : List ℕ × ℕ => p.1 ++ [p.2])
      ↑((drawSeqs n) ×ˢ Finset.range (n + 1)) := by
  rintro ⟨a, b⟩ ha ⟨c, d⟩ hc h
  simp only [Finset.coe_product, Set.mem_prod, Finset.mem_coe] at ha hc
  simp only at h
  have := List.append_inj h
    (by rw [length_of_mem_drawSeqs ha.1, length_of_mem_drawSeqs hc.1])
  simp only [List.cons.injEq] at this
  exact Prod.ext this.1 this.2.1

theorem card_drawSeqs (n : ℕ) : (drawSeqs n).card = Nat.factorial n := by
  induction n with
  | zero => simp [drawSeqs]
  | succ n ih =>
    rw [drawSeqs, Finset.card_image_of_injOn (drawSeqs_snoc_injOn n),
      Finset.card_product, Finset.card_range, ih, Nat.factorial_succ, Nat.mul_comm]

theorem resRunAux_append (k : ℕ) (A : List α) (i : ℕ) (l₁ l₂ : List (α × ℕ)) :
    resRunAux k A i (l₁ ++ l₂) = resRunAux k (resRunAux k A i l₁) (i + l₁.length) l₂ := by
  induction l₁ generalizing A i with
  | nil => simp [resRunAux]
  | cons p l₁ ih =>
    obtain ⟨x, r⟩ := p
    have harith : i + (l₁.length + 1) = i + 1 + l₁.length := by omega
    show resRunAux k (resStep k A i x r) (i + 1) (l₁ ++ l₂)
        = resRunAux k (resRunAux k (resStep k A i x r) (i + 1) l₁) (i + (l₁.length + 1)) l₂
    rw [harith, ih]

/-- Unfolding one trailing record/draw of an index run. -/
theorem resRunIdx_snoc (k n : ℕ) (rs : List ℕ) (r : ℕ) (h : rs.length = n) :
    resRunIdx k (n + 1) (rs ++ [r]) = resStep k (resRunIdx k n rs) n n r := by
  unfold resRunIdx resRun
  rw [List.range_succ, List.zip_append (by simp [h]), resRunAux_append]
  simp [resRunAux, h]

/-! #### The uncapped pass is a Fisher-Yates shuffle: permutation facts -/

/-- While the reservoir is still filling (`i = A.length < nrecords`), one
step extends the array by the new record, up to rearrangement. -/
theorem resStep_perm (k : ℕ) (A : List α) (x : α) (r : ℕ) (hik : A.length < k) :
    resStep k A A.length x r ~ A ++ [x] := by
  unfold resStep
  rw [if_pos hik]
  rcases lt_trichotomy r A.length with hr | hr | hr
  · have hgd : A.getD r x = A[r] := List.getD_eq_getElem A x hr
    rw [hgd, List.set_append_left _ _ hr,
      List.set_eq_take_cons_drop _ hr]
    calc A.take r ++ x :: A.drop (r + 1) ++ [A[r]]
        ~ (x :: (A.take r ++ A.drop (r + 1))) ++ [A[r]] :=
          List.Perm.append_right _ List.perm_middle
      _ ~ A[r] :: x :: (A.take r ++ A.drop (r + 1)) := by
          rw [← List.singleton_append]
          exact List.perm_append_comm
      _ ~ x :: A[r] :: (A.take r ++ A.drop (r + 1)) := List.Perm.swap _ _ _
      _ ~ x :: (A.take r ++ A[r] :: A.drop (r + 1)) := List.Perm.cons _ List.perm_middle.symm
      _ = x :: A := by
          congr 1
          conv_rhs => rw [← List.take_append_drop r A]
          congr 1
          exact List.getElem_cons_drop A r hr
      _ ~ A ++ [x] := (List.perm_append_singleton _ _).symm
  · subst hr
    rw [List.getD_eq_default _ _ le_rfl,
      List.set_append_right _ _ le_rfl]
    simp
  · rw [List.getD_eq_default _ _ (le_of_lt hr),
      List.set_eq_of_length_le (by simp; omega)]

/-- Folding further pairs only permutes and extends: the uncapped run over
array `A` at index `i = A.length` is a permutation of `A` followed by the
new records, as long as the cap is never reached. -/
theorem resRunAux_perm (k : ℕ) :
    ∀ (l : List (α × ℕ)) (A : List α), A.length + l.length ≤ k →
      resRunAux k A A.length l ~ A ++ l.map Prod.fst := by
  intro l
  induction l with
  | nil => intro A _; simp [resRunAux]
  | cons p l ih =>
    intro A hk
    obtain ⟨x, r⟩ := p
    have hik : A.length < k := by simp at hk; omega
    have hstep : resStep k A A.length x r ~ A ++ [x] := resStep_perm k A x r hik
    have hlen : (resStep k A A.length x r).length = A.length + 1 := by
      rw [hstep.length_eq]; simp
    have := ih (resStep k A A.length x r) (by simp at hk ⊢; omega)
    rw [hlen] at this
    calc resRunAux k (resStep k A A.length x r) (A.length + 1) l
        ~ resStep k A A.length x r ++ l.map Prod.fst := this
      _ ~ (A ++ [x]) ++ l.map Prod.fst := hstep.append_right _
      _ = A ++ (x :: l.map Prod.fst) := by simp

/-- With a cap at least the number of records, the pass keeps every record:
the final array is a permutation of the inputs. -/
theorem resRun_perm_of_le (k : ℕ) (xs : List α) (rs : List ℕ)
    (hlen : xs.length ≤ rs.length) (hk : xs.length ≤ k) :
    resRun k xs rs ~ xs := by
  have hzip : (xs.zip rs).map Prod.fst = xs := List.map_fst_zip xs rs hlen
  have hzlen : (xs.zip rs).length = xs.length := by
    rw [List.length_zip]; omega
  have := resRunAux_perm (α := α) k (xs.zip rs) [] (by simp [hzlen, hk])
  simpa [resRun, hzip] using this

/-! #### The capped pass is the truncation of the uncapped pass -/

theorem resStep_length {K : ℕ} {A : List α} {i : ℕ} (x : α) (r : ℕ)
    (hA : A.length = min i K) : (resStep K A i x r).length = min (i + 1) K := by
  unfold resStep
  rcases lt_or_ge i K with hiK | hiK
  · rw [if_pos hiK]
    simp only [List.length_set, List.length_append, List.length_cons, List.length_nil, hA]
    omega
  · rw [if_neg (by omega)]
    rcases lt_or_ge r K with hrK | hrK
    · rw [if_pos hrK]; simp [hA]; omega
    · rw [if_neg (by omega)]; omega

/-- One step of the capped pass is the `k`-prefix of the same step of a pass
with a larger cap. -/
theorem resStep_take {k K : ℕ} (hkK : k ≤ K) {A : List α} {i : ℕ} (x : α) (r : ℕ)
    (hA : A.length = min i K) :
    resStep k (A.take k) i x r = (resStep K A i x r).take k := by
  unfold resStep
  rcases lt_or_ge i k with hik | hik
  · -- reservoir still filling for both caps
    have hiK : i < K := lt_of_lt_of_le hik hkK
    have hAi : A.length = i := by omega
    rw [if_pos hik, if_pos hiK, List.take_of_length_le (by omega),
      List.take_of_length_le (by simp [hAi]; omega)]
  · rw [if_neg (show ¬ i < k by omega)]
    rcases lt_or_ge i K with hiK | hiK
    · -- k ≤ i < K: the large cap appends, the small cap has stopped growing
      have hAi : A.length = i := by omega
      rw [if_pos hiK, List.set_take, List.take_append_of_le_length (by omega)]
      rcases lt_or_ge r k with hrk | hrk
      · rw [if_pos hrk]
      · rw [if_neg (show ¬ r < k by omega),
          List.set_eq_of_length_le (by simp [hAi]; omega)]
    · -- both caps exceeded
      have hAK : A.length = K := by omega
      rw [if_neg (show ¬ i < K by omega)]
      rcases lt_or_ge r K with hrK | hrK
      · rw [if_pos hrK, List.set_take]
        rcases lt_or_ge r k with hrk | hrk
        · rw [if_pos hrk]
        · rw [if_neg (show ¬ r < k by omega),
            List.set_eq_of_length_le (by simp [hAK]; omega)]
      · rw [if_neg (show ¬ r < K by omega), if_neg (show ¬ r < k by omega)]

theorem resRunAux_take {k K : ℕ} (hkK : k ≤ K) :
    ∀ (l : List (α × ℕ)) (A : List α) (i : ℕ), A.length = min i K →
      resRunAux k (A.take k) i l = (resRunAux K A i l).take k := by
  intro l
  induction l with
  | nil => intro A i _; simp [resRunAux]
  | cons p l ih =>
    intro A i hA
    obtain ⟨x, r⟩ := p
    simp only [resRunAux]
    rw [resStep_take hkK x r hA, ih _ _ (resStep_length x r hA)]

theorem resRunAux_cap_ge {k K : ℕ} :
    ∀ (l : List (α × ℕ)) (A : List α) (i : ℕ), i + l.length ≤ k → i + l.length ≤ K →
      resRunAux k A i l = resRunAux K A i l := by
  intro l
  induction l with
  | nil => intro A i _ _; simp [resRunAux]
  | cons p l ih =>
    intro A i hk hK
    obtain ⟨x, r⟩ := p
    simp only [List.length_cons] at hk hK
    have hik : i < k := by omega
    have hiK : i < K := by omega
    simp only [resRunAux]
    rw [show resStep k A i x r = resStep K A i x r by unfold resStep; rw [if_pos hik, if_pos hiK],
      ih _ _ (by omega) (by omega)]

/-- The run with an irrelevantly large cap. -/
theorem resRunIdx_cap_ge {k n : ℕ} (hk : n ≤ k) (rs : List ℕ) :
    resRunIdx k n rs = resRunIdx n n rs := by
  unfold resRunIdx resRun
  exact resRunAux_cap_ge _ _ _ (by simp [List.length_zip]; omega) (by simp [List.length_zip])

theorem length_fullRun {n : ℕ} {rs : List ℕ} (h : n ≤ rs.length) :
    (resRunIdx n n rs).length = n := by
  have := (resRun_perm_of_le n (List.range n) rs (by simpa using h) (by simp)).length_eq
  simpa [resRunIdx] using this

/-- The capped pass produces exactly the `min n k`-prefix of the uncapped
(full Fisher-Yates) pass on the same draws. -/
theorem resRunIdx_take {k n : ℕ} (rs : List ℕ) (h : n ≤ rs.length) :
    resRunIdx k n rs = (resRunIdx n n rs).take (min n k) := by
  rcases le_total k n with hkn | hnk
  · have : min n k = k := by omega
    rw [this]
    have := resRunAux_take (α := ℕ) hkn ((List.range n).zip rs) [] 0 (by simp)
    simpa [resRunIdx, resRun] using this
  · rw [resRunIdx_cap_ge hnk, show min n k = n by omega,
      List.take_of_length_le (by rw [length_fullRun h])]

/-! #### Each permutation arises from exactly one draw sequence -/

theorem resStep_lt (k : ℕ) (A : List α) (i : ℕ) (x : α) (r : ℕ) (h : i < k) :
    resStep k A i x r = (A ++ [A.getD r x]).set r x := by
  unfold resStep; rw [if_pos h]

/-- Pointwise description of one step of the uncapped pass on a full array
of length `n`. -/
theorem stepFull_getElem? {n : ℕ} {A : List ℕ} (hAlen : A.length = n) (r : ℕ)
    (hr : r ≤ n) (j : ℕ) :
    (resStep (n + 1) A n n r)[j]? =
      if j = r then some n
      else if j < n then A[j]?
      else if j = n then some (A.getD r n)
      else none := by
  rw [resStep_lt _ _ _ _ _ (Nat.lt_succ_self n)]
  by_cases hjr : j = r
  · subst hjr
    rw [if_pos rfl]
    exact List.getElem?_set_self (by simp [hAlen]; omega)
  · rw [if_neg hjr, List.getElem?_set_ne (fun hh => hjr hh.symm)]
    by_cases hjn : j < n
    · rw [if_pos hjn, List.getElem?_append_left (by omega)]
    · rw [if_neg hjn]
      by_cases hje : j = n
      · subst hje
        rw [if_pos rfl, List.getElem?_append_right (by omega), hAlen]
        simp
      · rw [if_neg hje, List.getElem?_eq_none (by simp [hAlen]; omega)]

/-- Pointwise corollaries of `stepFull_getElem?`. -/
theorem stepFull_at_self {n : ℕ} {A : List ℕ} (hAlen : A.length = n) {r : ℕ}
    (hr : r ≤ n) : (resStep (n + 1) A n n r)[r]? = some n := by
  rw [stepFull_getElem? hAlen r hr r, if_pos rfl]

theorem stepFull_at_lt {n : ℕ} {A : List ℕ} (hAlen : A.length = n) {r j : ℕ}
    (hr : r ≤ n) (hj : j < n) (hjr : j ≠ r) :
    (resStep (n + 1) A n n r)[j]? = A[j]? := by
  rw [stepFull_getElem? hAlen r hr j, if_neg hjr, if_pos hj]

theorem stepFull_at_top {n : ℕ} {A : List ℕ} (hAlen : A.length = n) {r : ℕ}
    (hr : r < n) : (resStep (n + 1) A n n r)[n]? = A[r]? := by
  rw [stepFull_getElem? hAlen r (le_of_lt hr) n,
    if_neg (show ¬ (n = r) by omega), if_neg (show ¬ n < n by omega), if_pos rfl,
    List.getD_eq_getElem A n (show r < A.length by omega),
    List.getElem?_eq_getElem (show r < A.length by omega)]

/-- Distinct `(array, draw)` pairs produce distinct arrays: the step of the
uncapped pass is injective on full arrays. -/
theorem resStep_full_inj {n : ℕ} {A B : List ℕ} {r s : ℕ}
    (hA : A ~ List.range n) (hB : B ~ List.range n) (hr : r ≤ n) (hs : s ≤ n)
    (h : resStep (n + 1) A n n r = resStep (n + 1) B n n s) : r = s ∧ A = B := by
  have hAlen : A.length = n := by simpa using hA.length_eq
  have hBlen : B.length = n := by simpa using hB.length_eq
  have hAlt : ∀ x ∈ A, x < n := fun x hx => by
    have := hA.mem_iff.mp hx; simpa using this
  have hBlt : ∀ x ∈ B, x < n := fun x hx => by
    have := hB.mem_iff.mp hx; simpa using this
  have hC : ∀ j : ℕ, (resStep (n + 1) A n n r)[j]? = (resStep (n + 1) B n n s)[j]? :=
    fun j => by rw [h]
  have hrs : r = s := by
    by_contra hne
    have h1 := hC s
    rw [stepFull_at_self hBlen hs] at h1
    have hnA : n ∈ A := by
      rcases Nat.lt_or_ge s n with hsn | hsn
      · rw [stepFull_at_lt hAlen hr hsn (fun hh => hne hh.symm)] at h1
        exact List.getElem?_mem h1
      · have hsn' : s = n := by omega
        have hrn : r < n := by omega
        rw [hsn', stepFull_at_top hAlen hrn] at h1
        exact List.getElem?_mem h1
    have := hAlt n hnA
    omega
  subst hrs
  refine ⟨rfl, ?_⟩
  apply List.ext_getElem?
  intro j
  rcases Nat.lt_or_ge j n with hjn | hjn
  · by_cases hjr : j = r
    · subst hjr
      have hrn : j < n := hjn
      have h1 := hC n
      rw [stepFull_at_top hAlen hrn, stepFull_at_top hBlen hrn] at h1
      exact h1
    · have h1 := hC j
      rw [stepFull_at_lt hAlen hr hjn hjr, stepFull_at_lt hBlen hr hjn hjr] at h1
      exact h1
  · rw [List.getElem?_eq_none (show A.length ≤ j by omega),
      List.getElem?_eq_none (show B.length ≤ j by omega)]

/-- An array stepping to a permutation of `range (n + 1)` is itself a
permutation of `range n`. -/
theorem full_of_step {n p : ℕ} {A L : List ℕ} (hAlen : A.length = n)
    (hL : L ~ List.range (n + 1)) (hstep : resStep (n + 1) A n n p = L) :
    A ~ List.range n := by
  have hperm1 : L ~ A ++ [n] := by
    rw [← hstep]
    have := resStep_perm (n + 1) A n p (by omega)
    rwa [hAlen] at this
  have h1 : (n :: A) ~ (n :: List.range n) := by
    calc n :: A ~ A ++ [n] := (List.perm_append_singleton n A).symm
      _ ~ L := hperm1.symm
      _ ~ List.range (n + 1) := hL
      _ = List.range n ++ [n] := List.range_succ n
      _ ~ n :: List.range n := List.perm_append_singleton _ _
  exact h1.cons_inv

/-- Every permutation of `range (n + 1)` is produced by one step of the
uncapped pass from some full array (a permutation of `range n`) and draw. -/
theorem resStep_full_surj {n : ℕ} {L : List ℕ} (hL : L ~ List.range (n + 1)) :
    ∃ A r, A ~ List.range n ∧ r ≤ n ∧ resStep (n + 1) A n n r = L := by
  have hLlen : L.length = n + 1 := by simpa using hL.length_eq
  have hnL : n ∈ L := hL.mem_iff.mpr (by simp)
  obtain ⟨p, hp, hpL⟩ := List.mem_iff_getElem.mp hnL
  have hpn : p ≤ n := by omega
  have hAlen : ((L.set p (L.getD n 0)).take n).length = n := by
    simp [hLlen]
  have hstep : resStep (n + 1) ((L.set p (L.getD n 0)).take n) n n p = L := by
    apply List.ext_getElem?
    intro j
    rw [stepFull_getElem? hAlen p hpn j]
    by_cases hjp : j = p
    · subst hjp
      rw [if_pos rfl, List.getElem?_eq_getElem hp, hpL]
    · rw [if_neg hjp]
      by_cases hjn : j < n
      · rw [if_pos hjn, List.getElem?_take_of_lt hjn,
          List.getElem?_set_ne (fun hh => hjp hh.symm)]
      · rw [if_neg hjn]
        by_cases hje : j = n
        · have hpltn : p < n := by omega
          rw [if_pos hje, hje, List.getD_eq_getElem _ n (by rw [hAlen]; omega),
            List.getElem?_eq_getElem (by omega)]
          congr 1
          rw [List.getElem_take, List.getElem_set_self (by simp [hLlen]; omega),
            List.getD_eq_getElem L 0 (by omega)]
        · rw [if_neg hje, List.getElem?_eq_none (by omega)]
  exact ⟨_, p, full_of_step hAlen hL hstep, hpn, hstep⟩

/-- The uncapped pass always yields a permutation of the record indices. -/
theorem fullRun_perm {n : ℕ} {rs : List ℕ} (h : rs ∈ drawSeqs n) :
    resRunIdx n n rs ~ List.range n := by
  have hlen := length_of_mem_drawSeqs h
  exact resRun_perm_of_le n (List.range n) rs (by simp [hlen]) (by simp)

/-- Each permutation of the `n` record indices is produced by exactly one
draw sequence: the uncapped pass is a bijection between draw sequences and
permutations. -/
theorem fullRun_fiber_card : ∀ (n : ℕ) (L : List ℕ), L ~ List.range n →
    ((drawSeqs n).filter fun rs => resRunIdx n n rs = L).card = 1 := by
  intro n
  induction n with
  | zero =>
    intro L hL
    have hLnil : L = [] := List.eq_nil_of_length_eq_zero (by simpa using hL.length_eq)
    subst hLnil
    decide
  | succ n ih =>
    intro L hL
    obtain ⟨A₀, r₀, hA₀, hr₀, hstep₀⟩ := resStep_full_surj hL
    have himg : drawSeqs (n + 1) =
        ((drawSeqs n) ×ˢ Finset.range (n + 1)).image (fun p => p.1 ++ [p.2]) := rfl
    rw [himg, Finset.filter_image,
      Finset.card_image_of_injOn ((drawSeqs_snoc_injOn n).mono (by
        intro p hp
        simp only [Finset.coe_filter, Set.mem_setOf_eq] at hp
        exact hp.1))]
    have hfilter : (((drawSeqs n) ×ˢ Finset.range (n + 1)).filter
        fun p : List ℕ × ℕ => resRunIdx (n + 1) (n + 1) (p.1 ++ [p.2]) = L)
        = ((drawSeqs n).filter fun rs => resRunIdx n n rs = A₀) ×ˢ
          ((Finset.range (n + 1)).filter fun r => r = r₀) := by
      rw [← Finset.filter_product]
      apply Finset.filter_congr
      rintro ⟨rs, r⟩ hmem
      simp only [Finset.mem_product, Finset.mem_range] at hmem
      obtain ⟨hrs, hrr⟩ := hmem
      rw [resRunIdx_snoc (n + 1) n rs r (length_of_mem_drawSeqs hrs),
        resRunIdx_cap_ge (Nat.le_succ n)]
      constructor
      · intro hL'
        have hfull : resRunIdx n n rs ~ List.range n := fullRun_perm hrs
        have hinj := resStep_full_inj hfull hA₀ (show r ≤ n by omega) hr₀
          (by rw [hL', hstep₀])
        exact ⟨hinj.2, hinj.1⟩
      · rintro ⟨h1, h2⟩
        have h1' : resRunIdx n n rs = A₀ := h1
        have h2' : r = r₀ := h2
        rw [h1', h2']
        exact hstep₀
    rw [hfilter, Finset.card_product, ih A₀ hA₀,
      Finset.filter_eq' (Finset.range (n + 1)) r₀,
      if_pos (Finset.mem_range.mpr (by omega)), Finset.card_singleton]

/-! #### Counting permutations with a fixed prefix -/

/-- The elements of `range n` lying in a nodup list `T` of naturals `< n`
are a rearrangement of `T`. -/
theorem filter_range_mem_perm {n : ℕ} {T : List ℕ} (hT : T.Nodup)
    (hTlt : ∀ x ∈ T, x < n) :
    (List.range n).filter (fun x => x ∈ T) ~ T := by
  apply List.perm_of_nodup_nodup_toFinset_eq
    ((List.nodup_range n).filter _) hT
  ext x
  simp only [List.mem_toFinset, List.mem_filter, List.mem_range, decide_eq_true_eq]
  exact ⟨fun h => h.2, fun h => ⟨hTlt x h, h⟩⟩

theorem prefix_complement_perm {n : ℕ} {T : List ℕ} (hT : T.Nodup)
    (hTlt : ∀ x ∈ T, x < n) :
    T ++ (List.range n).filter (fun x => !decide (x ∈ T)) ~ List.range n := by
  calc T ++ (List.range n).filter (fun x => !decide (x ∈ T))
      ~ (List.range n).filter (fun x => x ∈ T) ++
          (List.range n).filter (fun x => !decide (x ∈ T)) :=
        List.Perm.append_right _ (filter_range_mem_perm hT hTlt).symm
    _ ~ List.range n := List.filter_append_perm _ _

/-- Among the permutation lists of `range n`, exactly `(n - m)!` have a given
nodup prefix `T` of length `m`. -/
theorem card_perms_with_prefix {n m : ℕ} {T : List ℕ} (hT : T.Nodup)
    (hTlen : T.length = m) (hTlt : ∀ x ∈ T, x < n) :
    (((List.range n).permutations.toFinset).filter fun L => L.take m = T).card =
      Nat.factorial (n - m) := by
  have hcperm := prefix_complement_perm hT hTlt
  have hcnodup : ((List.range n).filter (fun x => !decide (x ∈ T))).Nodup :=
    (List.nodup_range n).filter _
  have hclen : ((List.range n).filter (fun x => !decide (x ∈ T))).length = n - m := by
    have := hcperm.length_eq
    simp only [List.length_append, List.length_range, hTlen] at this
    omega
  have himg : (((List.range n).permutations.toFinset).filter fun L => L.take m = T) =
      (((List.range n).filter (fun x => !decide (x ∈ T))).permutations.toFinset).image
        (fun D => T ++ D) := by
    ext L
    simp only [Finset.mem_filter, Finset.mem_image, List.mem_toFinset,
      List.mem_permutations]
    constructor
    · rintro ⟨hLperm, hLtake⟩
      refine ⟨L.drop m, ?_, ?_⟩
      · rw [← List.perm_append_left_iff T]
        calc T ++ L.drop m = L := by rw [← hLtake]; exact List.take_append_drop m L
          _ ~ List.range n := hLperm
          _ ~ T ++ (List.range n).filter (fun x => !decide (x ∈ T)) := hcperm.symm
      · rw [← hLtake]; exact List.take_append_drop m L
    · rintro ⟨D, hD, rfl⟩
      constructor
      · calc T ++ D ~ T ++ (List.range n).filter (fun x => !decide (x ∈ T)) :=
            List.Perm.append_left T hD
          _ ~ List.range n := hcperm
      · rw [← hTlen, List.take_append_of_le_length le_rfl,
          List.take_of_length_le le_rfl]
  rw [himg, Finset.card_image_of_injOn (fun D _ E _ h => List.append_inj_right h rfl),
    List.card_toFinset, (List.nodup_permutations _ hcnodup).dedup,
    List.length_permutations, hclen]

/-! #### Claim C1: the reservoir invariant -/

/-- The number of draw sequences mapping to a given capped array `T`. -/
theorem reservoir_fiber_card (n k : ℕ) (T : List ℕ) (hT : T.Nodup)
    (hTlen : T.length = min n k) (hTlt : ∀ x ∈ T, x < n) :
    ((drawSeqs n).filter fun rs => resRunIdx k n rs = T).card =
      Nat.factorial (n - min n k) := by
  have hcong : ((drawSeqs n).filter fun rs => resRunIdx k n rs = T) =
      ((drawSeqs n).filter fun rs => (resRunIdx n n rs).take (min n k) = T) := by
    apply Finset.filter_congr
    intro rs hrs
    rw [resRunIdx_take rs (by rw [length_of_mem_drawSeqs hrs])]
  rw [hcong]
  have hfib := Finset.card_eq_sum_card_fiberwise
    (f := fun rs => resRunIdx n n rs)
    (s := (drawSeqs n).filter fun rs => (resRunIdx n n rs).take (min n k) = T)
    (t := ((List.range n).permutations.toFinset).filter fun L => L.take (min n k) = T)
    (by
      intro rs hrs
      simp only [Finset.mem_filter] at hrs ⊢
      exact ⟨List.mem_toFinset.mpr (List.mem_permutations.mpr (fullRun_perm hrs.1)),
        hrs.2⟩)
  rw [hfib]
  have hone : ∀ L ∈ ((List.range n).permutations.toFinset).filter
      (fun L => L.take (min n k) = T),
      (((drawSeqs n).filter fun rs => (resRunIdx n n rs).take (min n k) = T).filter
        fun rs => resRunIdx n n rs = L).card = 1 := by
    intro L hL
    simp only [Finset.mem_filter, List.mem_toFinset, List.mem_permutations] at hL
    have hinner : (((drawSeqs n).filter fun rs =>
        (resRunIdx n n rs).take (min n k) = T).filter
          fun rs => resRunIdx n n rs = L) =
        ((drawSeqs n).filter fun rs => resRunIdx n n rs = L) := by
      rw [Finset.filter_filter]
      apply Finset.filter_congr
      intro rs _
      constructor
      · rintro ⟨_, h2⟩; exact h2
      · intro h2; rw [h2]; exact ⟨hL.2, rfl⟩
    rw [hinner]
    exact fullRun_fiber_card n L hL.1
  rw [Finset.sum_congr rfl hone, Finset.sum_const, smul_eq_mul, mul_one]
  exact card_perms_with_prefix hT hTlen hTlt

/-! #### Budget invariant -/

theorem liveFootprint_zero : liveFootprint 0 = 0 := rfl

theorem liveFootprint_cons (len : ℕ) (live : Multiset ℕ) :
    liveFootprint (len ::ₘ live) = (recEstMemUse len : ℤ) + liveFootprint live := by
  simp [liveFootprint]

theorem liveFootprint_erase {len : ℕ} {live : Multiset ℕ} (h : len ∈ live) :
    liveFootprint (live.erase len) = liveFootprint live - (recEstMemUse len : ℤ) := by
  conv_rhs => rw [← Multiset.cons_erase h]
  rw [liveFootprint_cons]
  ring

/-- The budget accounting invariant propagates along any valid event
sequence. -/
theorem budgetRun_inv (c₀ : ℤ) :
    ∀ (evs : List BudgetEvent) (s : BudgetState), budgetOk s evs = true →
      s.cache = c₀ - liveFootprint s.live → 0 ≤ s.cache →
      ∀ p, List.IsPrefix p evs →
        (budgetRun s p).cache = c₀ - liveFootprint (budgetRun s p).live ∧
          0 ≤ (budgetRun s p).cache := by
  intro evs
  induction evs with
  | nil =>
    intro s _ h1 h2 p hp
    rw [List.prefix_nil.mp hp]
    exact ⟨h1, h2⟩
  | cons e es ih =>
    intro s hok h1 h2 p hp
    rcases p with _ | ⟨e', p'⟩
    · exact ⟨h1, h2⟩
    · obtain ⟨t, ht⟩ := hp
      rw [List.cons_append] at ht
      have he : e' = e := (List.cons.inj ht).1
      have hp' : List.IsPrefix p' es := ⟨t, (List.cons.inj ht).2⟩
      subst he
      have hnext : budgetOk (budgetStep s e') es = true ∧
          (budgetStep s e').cache = c₀ - liveFootprint (budgetStep s e').live ∧
          0 ≤ (budgetStep s e').cache := by
        cases e' with
        | retain len =>
          simp only [budgetOk, Bool.and_eq_true, decide_eq_true_eq] at hok
          refine ⟨hok.2, ?_, ?_⟩
          · simp only [budgetStep, liveFootprint_cons]
            rw [h1]; ring
          · simp only [budgetStep]
            omega
        | bypass =>
          simp only [budgetOk] at hok
          exact ⟨hok, h1, h2⟩
        | free len =>
          simp only [budgetOk, Bool.and_eq_true, decide_eq_true_eq] at hok
          refine ⟨hok.2, ?_, ?_⟩
          · simp only [budgetStep, liveFootprint_erase hok.1]
            rw [h1]; ring
          · simp only [budgetStep]
            have : (0 : ℤ) ≤ recEstMemUse len := Int.ofNat_nonneg _
            omega
      show (budgetRun (budgetStep s e') p').cache =
          c₀ - liveFootprint (budgetRun (budgetStep s e') p').live ∧
          0 ≤ (budgetRun (budgetStep s e') p').cache
      exact ih (budgetStep s e') hnext.1 hnext.2.1 hnext.2.2 p' hp'

/-- Claim C3: along every valid run, the memory-budget counter never goes
negative (each decrement in `rec_next` is guarded by the check that the
remaining budget covers the estimated footprint, and `rec_free` credits back
exactly the same footprint), the counter always equals the initial value
minus the live retained footprint, and once every retained record has been
released it equals the initial value exactly. -/
theorem c3_memory_budget_invariant (c₀ : ℤ) (evs : List BudgetEvent)
    (h0 : 0 ≤ c₀) (hok : budgetOk ⟨c₀, 0⟩ evs = true) :
    (∀ p, List.IsPrefix p evs → 0 ≤ (budgetRun ⟨c₀, 0⟩ p).cache ∧
      (budgetRun ⟨c₀, 0⟩ p).cache = c₀ - liveFootprint (budgetRun ⟨c₀, 0⟩ p).live) ∧
    ((budgetRun ⟨c₀, 0⟩ evs).live = 0 → (budgetRun ⟨c₀, 0⟩ evs).cache = c₀) := by
  have hbase : (⟨c₀, 0⟩ : BudgetState).cache = c₀ - liveFootprint (⟨c₀, 0⟩ : BudgetState).live := by
    simp [liveFootprint]
  have hmain := budgetRun_inv c₀ evs ⟨c₀, 0⟩ hok hbase h0
  constructor
  · intro p hp
    exact ⟨(hmain p hp).2, (hmain p hp).1⟩
  · intro hlive
    have := (hmain evs (List.prefix_refl evs)).1
    rw [hlive] at this
    simpa [liveFootprint] using this

/-- Witness for C3, with the program's initial budget
`memory_cache_initial = 16 * 1024` (`part_003` line 319) and a run that
retains, bypasses and releases one record. -/
theorem c3_memory_budget_invariant_witness :
    0 ≤ (16384 : ℤ) ∧
    budgetOk ⟨16384, 0⟩ [.retain 100, .bypass, .free 100] = true ∧
    ((budgetRun ⟨16384, 0⟩ [.retain 100, .bypass, .free 100]).live = 0 →
      (budgetRun ⟨16384, 0⟩ [.retain 100, .bypass, .free 100]).cache = 16384) :=
  ⟨by decide, by decide,
    (c3_memory_budget_invariant 16384 [.retain 100, .bypass, .free 100]
      (by decide) (by decide)).2⟩

/-! #### Claims C1, C2, C4 -/

/-- Claim C1: for the reservoir sampler of `part_003`, after processing the
first `n = i + 1` records with cap `nrecords = k`, the logical array
`A[0 .. min n k)` is such that every ordered subsequence of size `min n k`
of the records seen so far (records are identified with their running
indices `0, ..., n - 1`) is attained by exactly `(n - min n k)!` of the
`n!` draw sequences — i.e. each arrangement is equally likely when the
draws `r` are uniform on `{0, ..., i}`. -/
theorem c1_reservoir_uniform (n k : ℕ) (T : List ℕ) (hT : T.Nodup)
    (hTlen : T.length = min n k) (hTlt : ∀ x ∈ T, x < n) :
    ((drawSeqs n).filter fun rs => resRunIdx k n rs = T).card =
      Nat.factorial (n - min n k) ∧
    (drawSeqs n).card = Nat.factorial n :=
  ⟨reservoir_fiber_card n k T hT hTlen hTlt, card_drawSeqs n⟩

/-- Witness for C1 at `n = 3`, `k = 2`, target array `[2, 0]`. -/
theorem c1_reservoir_uniform_witness :
    ((drawSeqs 3).filter fun rs => resRunIdx 2 3 rs = [2, 0]).card =
      Nat.factorial (3 - min 3 2) ∧
    (drawSeqs 3).card = Nat.factorial 3 :=
  c1_reservoir_uniform 3 2 [2, 0] (by decide) (by decide) (by decide)

/-- Claim C2: with no cap requested (`nrecords` keeps its default
`UINT32_MAX`, and a completed pass has seen at most `UINT32_MAX - 2`
records), the written output is a permutation of exactly the input records:
same multiset of records, each input record appearing exactly once. -/
theorem c2_uncapped_permutation {α : Type _} [DecidableEq α] (xs : List α)
    (rs : List ℕ) (hlen : rs.length = xs.length) (hn : xs.length ≤ 2 ^ 32 - 3) :
    mainOutput UINT32_MAX xs rs ~ xs ∧
    ∀ x : α, (mainOutput UINT32_MAX xs rs).count x = xs.count x := by
  have hperm : resRun UINT32_MAX xs rs ~ xs :=
    resRun_perm_of_le UINT32_MAX xs rs (le_of_eq hlen.symm)
      (by unfold UINT32_MAX; omega)
  have hout : mainOutput UINT32_MAX xs rs = resRun UINT32_MAX xs rs := by
    unfold mainOutput
    rw [show min xs.length UINT32_MAX = xs.length by unfold UINT32_MAX at *; omega,
      List.take_of_length_le (le_of_eq hperm.length_eq)]
  rw [hout]
  exact ⟨hperm, fun x => hperm.count_eq x⟩

/-- Witness for C2 on a two-record input. -/
theorem c2_uncapped_permutation_witness :
    mainOutput UINT32_MAX [10, 20] [0, 1] ~ [10, 20] ∧
    ∀ x : ℕ, (mainOutput UINT32_MAX [10, 20] [0, 1]).count x = [10, 20].count x :=
  c2_uncapped_permutation [10, 20] [0, 1] rfl (by decide)

/-- Claim C4 counterexample: requesting a cap of `k = 0` does not yield
"no output and no error" — the option value `0` is outside the accepted
range `[1, UINT32_MAX - 1]` of the `strtonum` call at `part_003` line 406,
so `main` reports "number of records is too small" and exits with status 1
(`errx(1, ...)`): an error, before any sampling happens. -/
theorem c4_cap_counterexample :
    parseNOption 0 = .tooSmall ∧ StrtonumRes.tooSmall ≠ .ok 0 := by
  constructor
  · rfl
  · intro h
    cases h

/-- Claim C4 (amended): requesting a cap `k ≥ n` yields exactly the full
randomized set of all `n` records (the output is a permutation of the whole
input); requesting `k = 0` is impossible — `-n 0` is rejected during option
parsing with a fatal "number of records is too small" error, so the program
produces no output but does report an error. -/
theorem c4_cap_correctness {α : Type _} (k : ℕ) (xs : List α) (rs : List ℕ)
    (hlen : rs.length = xs.length) (hk : xs.length ≤ k) :
    mainOutput k xs rs ~ xs ∧ parseNOption 0 = .tooSmall := by
  have hperm : resRun k xs rs ~ xs :=
    resRun_perm_of_le k xs rs (le_of_eq hlen.symm) hk
  have hout : mainOutput k xs rs = resRun k xs rs := by
    unfold mainOutput
    rw [show min xs.length k = xs.length by omega,
      List.take_of_length_le (le_of_eq hperm.length_eq)]
  rw [hout]
  exact ⟨hperm, rfl⟩

/-- Witness for C4 with `k = 5 ≥ n = 2`. -/
theorem c4_cap_correctness_witness :
    mainOutput 5 [7, 8] [0, 0] ~ [7, 8] ∧ parseNOption 0 = .tooSmall :=
  c4_cap_correctness 5 [7, 8] [0, 0] rfl (by decide)

/-! #### Claim C7 -/

theorem p4Loop_no_zero_stored :
    ∀ (outs : List RecNextOutcome) (acc stored : List ℤ),
      (∀ l ∈ acc, l ≠ 0) → p4Loop outs acc = .finished stored →
      ∀ l ∈ stored, l ≠ 0 := by
  intro outs
  induction outs with
  | nil =>
    intro acc stored hacc h
    simp only [p4Loop, P4Res.finished.injEq] at h
    rw [← h]
    exact hacc
  | cons o rest ih =>
    intro acc stored hacc h
    cases o with
    | err e =>
      simp only [p4Loop, p4Dispatch] at h
      by_cases h0 : e = 0
      · rw [if_pos h0] at h
        simp only [P4Res.finished.injEq] at h
        rw [← h]; exact hacc
      · rw [if_neg h0] at h
        by_cases htr : e = EAGAIN ∨ e = EINTR
        · rw [if_pos htr] at h
          exact ih acc stored hacc h
        · rw [if_neg htr] at h
          cases h
    | ok len =>
      simp only [p4Loop, p4Dispatch] at h
      by_cases h0 : len = 0
      · rw [if_pos h0] at h
        cases h
      · rw [if_neg h0] at h
        refine ih (acc ++ [len]) stored ?_ h
        intro l hl
        rcases List.mem_append.mp hl with hl | hl
        · exact hacc l hl
        · rw [List.mem_singleton.mp hl]; exact h0

/-- Claim C7: in the sampling loop of `part_004`, a record whose match
length is zero is rejected with the fatal "Regular expression matched a
zero-length record" error, aborting the pass before the record is counted:
no completed pass ever stores a zero-length record, and a zero-length
record immediately aborts. -/
theorem c7_zero_length_fatal :
    (∀ (outs : List RecNextOutcome) (stored : List ℤ),
      p4Loop outs [] = .finished stored → ∀ l ∈ stored, l ≠ 0) ∧
    p4Loop [.ok 0] [] = .aborted ∧
    p4Dispatch (.ok 0) = .fatalZeroLength := by
  refine ⟨?_, rfl, rfl⟩
  intro outs stored h
  exact p4Loop_no_zero_stored outs [] stored (by simp) h

/-- Witness for C7: a completed two-record pass stores no zero-length
record. -/
theorem c7_zero_length_fatal_witness :
    ∀ l ∈ [(5 : ℤ), 3], l ≠ 0 :=
  c7_zero_length_fatal.1 [.ok 5, .ok 3, .err 0] [5, 3] (by decide)

/-! ### The template engine finite-state machine
(`rec_write_raw`, `part_001` lines 551-774)

The delimiter template is processed byte by byte by an explicit FSM with
states `NORMAL, SEEN_BACKSLASH, SEEN_OCTAL1, SEEN_OCTAL2, SEEN_HEX0,
SEEN_HEX1`.  The C loop runs `for (i = 0; i <= strlen(delim); i++)`, i.e.
the terminating NUL byte is processed too (it flushes pending octal/hex
state and is ignored in `NORMAL`).  The `i--` re-processing of the current
byte is modelled by recursing on the unconsumed list.

Output is abstracted as a list of emissions: `Out.byte b` for `putc` of the
byte `b`, and `Out.group g` for the `fwrite` of capture group `g`'s matched
text at the `output_match` label (`&` is group 0).  `ovector_valid` (the
`pcre_exec` return value: 0 for an unterminated final record, else
1 + number of capturing groups that participated) gates `output_match`. -/

inductive TState where
  | normal
  | backslash
  | octal1
  | octal2
  | hex0
  | hex1
  deriving DecidableEq, Repr

inductive Out where
  | byte (b : ℕ)
  | group (g : ℕ)
  deriving DecidableEq, Repr

inductive TErr where
  | unterminated (v : ℕ)   -- "The argument to -o contains &/\d, but the last argument is not terminated" (or "-a")
  | badBackref (v : ℕ)     -- "Invalid backreference \d"
  | invalidEscape (c : ℕ)  -- "Invalid escape sequence \c: reserved for future use"
  | invalidHex (c : ℕ)     -- "Invalid escape sequence \xc: expected a hex digit"
  deriving DecidableEq, Repr

/-- `isdigit(c) && c != '8' && c != '9'`: an octal digit `0`-`7`. -/
def isOctDigit (c : ℕ) : Bool := 48 ≤ c && c ≤ 55

/-- `isdigit(c)`. -/
def isDigitB (c : ℕ) : Bool := 48 ≤ c && c ≤ 57

/-- `isxdigit(c)`. -/
def isHexDigitB (c : ℕ) : Bool :=
  isDigitB c || (65 ≤ c && c ≤ 70) || (97 ≤ c && c ≤ 102)

/-- `delim[i] - (isdigit(delim[i]) ? '0' : isupper(delim[i]) ? 'A' : 'a')`
from `part_001` line 706 (note: the original lacks a `+ 10` for letter
digits; embedded as written). -/
def hexDigitVal (c : ℕ) : ℕ :=
  if isDigitB c then c - 48 else if 65 ≤ c ∧ c ≤ 70 then c - 65 else c - 97

/-- The `output_match` label (lines 588-617): emit capture group `v` if it
participated (`value < ovector_valid`); otherwise a fatal error, whose
message depends on whether the record had any match at all
(`ovector_valid == 0`, the unterminated-final-record / `-a` case) or the
backreference index is simply too large. -/
def emitGroup (ov v : ℕ) : Sum TErr Out :=
  if ov ≤ v then .inl (if ov = 0 then .unterminated v else .badBackref v)
  else .inr (.group v)

def consOut (o : Out) (p : List Out × Option TErr) : List Out × Option TErr :=
  (o :: p.1, p.2)

/-- States that can re-process the current byte (`i--`), ranked for
termination. -/
def stateRank : TState → ℕ
  | .octal1 => 2
  | .octal2 => 1
  | .hex1 => 1
  | _ => 0

/-- The FSM of `rec_write_raw` (lines 577-762), acting on the remaining
bytes; returns the emissions and an optional fatal error cutting the run
short. -/
def fsmRun (st : TState) (value ov : ℕ) : List ℕ → List Out × Option TErr
  | [] => ([], none)
  | c :: cs =>
    match st with
    | .normal =>
      if c = 92 then fsmRun .backslash 0 ov cs          -- backslash
      else if c = 38 then                               -- ampersand
        match emitGroup ov 0 with
        | .inl e => ([], some e)
        | .inr o => consOut o (fsmRun .normal 0 ov cs)
      else if c = 0 then fsmRun .normal 0 ov cs         -- NUL: ignore
      else consOut (.byte c) (fsmRun .normal 0 ov cs)
    | .backslash =>
      if c = 38 then consOut (.byte 38) (fsmRun .normal 0 ov cs)
      else if c = 92 then consOut (.byte 92) (fsmRun .normal 0 ov cs)
      else if c = 97 then consOut (.byte 7) (fsmRun .normal 0 ov cs)
      else if c = 98 then consOut (.byte 8) (fsmRun .normal 0 ov cs)
      else if c = 102 then consOut (.byte 12) (fsmRun .normal 0 ov cs)
      else if c = 110 then consOut (.byte 10) (fsmRun .normal 0 ov cs)
      else if c = 114 then consOut (.byte 13) (fsmRun .normal 0 ov cs)
      else if c = 116 then consOut (.byte 9) (fsmRun .normal 0 ov cs)
      else if c = 118 then consOut (.byte 11) (fsmRun .normal 0 ov cs)
      else if c = 120 then fsmRun .hex0 0 ov cs         -- x
      else if isOctDigit c then fsmRun .octal1 (c - 48) ov cs
      else if c = 56 ∨ c = 57 then                      -- 8, 9: backreference
        match emitGroup ov (c - 48) with
        | .inl e => ([], some e)
        | .inr o => consOut o (fsmRun .normal 0 ov cs)
      else ([], some (.invalidEscape c))
    | .hex0 =>
      if isHexDigitB c then fsmRun .hex1 (16 * value + hexDigitVal c) ov cs
      else ([], some (.invalidHex c))
    | .hex1 =>
      if isHexDigitB c then
        consOut (.byte ((16 * value + hexDigitVal c) % 256)) (fsmRun .normal 0 ov cs)
      else
        -- not a hex digit: print value and re-process the byte
        consOut (.byte (value % 256)) (fsmRun .normal 0 ov (c :: cs))
    | .octal1 =>
      if isOctDigit c then fsmRun .octal2 (8 * value + (c - 48)) ov cs
      else if value ≠ 0 then
        -- not an octal digit: print *backreference* and re-process the byte
        match emitGroup ov value with
        | .inl e => ([], some e)
        | .inr o => consOut o (fsmRun .normal 0 ov (c :: cs))
      else
        -- value 0: fall through to SEEN_OCTAL2 re-processing the byte
        fsmRun .octal2 value ov (c :: cs)
    | .octal2 =>
      if isOctDigit c then
        consOut (.byte ((8 * value + (c - 48)) % 256)) (fsmRun .normal 0 ov cs)
      else
        consOut (.byte (value % 256)) (fsmRun .normal 0 ov (c :: cs))
termination_by cs => 3 * cs.length + stateRank st
decreasing_by all_goals (simp [stateRank]; try omega)

/-- Rendering the output template `cs` (a NUL-free C string, given as its
byte values) against a record with `ovector_valid = ov`: the loop of
`rec_write_raw` processes the bytes and the final NUL. -/
def renderDelim (ov : ℕ) (cs : List ℕ) : List Out × Option TErr :=
  fsmRun .normal 0 ov (cs ++ [0])

/-! #### Single-step facts about the FSM -/

theorem fsmRun_normal_backslash (value ov : ℕ) (cs : List ℕ) :
    fsmRun .normal value ov (92 :: cs) = fsmRun .backslash 0 ov cs := by
  simp [fsmRun]

theorem fsmRun_normal_amp (value ov : ℕ) (cs : List ℕ) :
    fsmRun .normal value ov (38 :: cs) =
      match emitGroup ov 0 with
      | .inl e => ([], some e)
      | .inr o => consOut o (fsmRun .normal 0 ov cs) := by
  simp [fsmRun]

theorem fsmRun_normal_amp_group {ov : ℕ} (h : 0 < ov) (value : ℕ)
    (cs : List ℕ) :
    fsmRun .normal value ov (38 :: cs) =
      consOut (.group 0) (fsmRun .normal 0 ov cs) := by
  have h' : ¬ ov ≤ 0 := by omega
  simp [fsmRun, emitGroup, h']

theorem fsmRun_normal_amp_unterminated (value : ℕ) (cs : List ℕ) :
    fsmRun .normal value 0 (38 :: cs) = ([], some (.unterminated 0)) := by
  simp [fsmRun, emitGroup]

theorem fsmRun_normal_nul (value ov : ℕ) (cs : List ℕ) :
    fsmRun .normal value ov (0 :: cs) = fsmRun .normal 0 ov cs := by
  simp [fsmRun]

theorem fsmRun_normal_other {c : ℕ} (h92 : c ≠ 92) (h38 : c ≠ 38) (h0 : c ≠ 0)
    (value ov : ℕ) (cs : List ℕ) :
    fsmRun .normal value ov (c :: cs) =
      consOut (.byte c) (fsmRun .normal 0 ov cs) := by
  simp [fsmRun, h92, h38, h0]

/-- The byte emitted by the nine simple escapes (`\&`, `\\`, `\a`, `\b`,
`\f`, `\n`, `\r`, `\t`, `\v`). -/
def escByte (c : ℕ) : ℕ :=
  if c = 97 then 7 else if c = 98 then 8 else if c = 102 then 12
  else if c = 110 then 10 else if c = 114 then 13 else if c = 116 then 9
  else if c = 118 then 11 else c

theorem fsmRun_backslash_simple {c : ℕ}
    (h : c = 38 ∨ c = 92 ∨ c = 97 ∨ c = 98 ∨ c = 102 ∨ c = 110 ∨ c = 114 ∨
      c = 116 ∨ c = 118) (value ov : ℕ) (cs : List ℕ) :
    fsmRun .backslash value ov (c :: cs) =
      consOut (.byte (escByte c)) (fsmRun .normal 0 ov cs) := by
  rcases h with rfl | rfl | rfl | rfl | rfl | rfl | rfl | rfl | rfl <;>
    simp [fsmRun, isOctDigit, escByte]

theorem fsmRun_backslash_hex (value ov : ℕ) (cs : List ℕ) :
    fsmRun .backslash value ov (120 :: cs) = fsmRun .hex0 0 ov cs := by
  simp [fsmRun]

theorem fsmRun_backslash_oct {d : ℕ} (h1 : 48 ≤ d) (h2 : d ≤ 55) {value : ℕ}
    (ov : ℕ) (cs : List ℕ) :
    fsmRun .backslash value ov (d :: cs) = fsmRun .octal1 (d - 48) ov cs := by
  have hoct : isOctDigit d = true := by
    simp only [isOctDigit, Bool.and_eq_true, decide_eq_true_eq]; omega
  have e1 : d ≠ 38 := by omega
  have e2 : d ≠ 92 := by omega
  have e3 : d ≠ 97 := by omega
  have e4 : d ≠ 98 := by omega
  have e5 : d ≠ 102 := by omega
  have e6 : d ≠ 110 := by omega
  have e7 : d ≠ 114 := by omega
  have e8 : d ≠ 116 := by omega
  have e9 : d ≠ 118 := by omega
  have e10 : d ≠ 120 := by omega
  simp [fsmRun, e1, e2, e3, e4, e5, e6, e7, e8, e9, e10, hoct]

theorem fsmRun_backslash_89_raw {d : ℕ} (h : d = 56 ∨ d = 57) (value ov : ℕ)
    (cs : List ℕ) :
    fsmRun .backslash value ov (d :: cs) =
      match emitGroup ov (d - 48) with
      | .inl e => ([], some e)
      | .inr o => consOut o (fsmRun .normal 0 ov cs) := by
  rcases h with rfl | rfl <;> simp [fsmRun, isOctDigit]

theorem fsmRun_backslash_89 {d : ℕ} (h : d = 56 ∨ d = 57) {ov : ℕ}
    (hov : d - 48 < ov) (value : ℕ) (cs : List ℕ) :
    fsmRun .backslash value ov (d :: cs) =
      consOut (.group (d - 48)) (fsmRun .normal 0 ov cs) := by
  have h' : ¬ ov ≤ d - 48 := by omega
  rw [fsmRun_backslash_89_raw h]
  simp [emitGroup, h']

theorem fsmRun_backslash_89_unterminated {d : ℕ} (h : d = 56 ∨ d = 57)
    (value : ℕ) (cs : List ℕ) :
    fsmRun .backslash value 0 (d :: cs) = ([], some (.unterminated (d - 48))) := by
  rw [fsmRun_backslash_89_raw h]
  simp [emitGroup]

theorem fsmRun_backslash_invalid {c : ℕ}
    (h38 : c ≠ 38) (h92 : c ≠ 92) (h97 : c ≠ 97) (h98 : c ≠ 98)
    (h102 : c ≠ 102) (h110 : c ≠ 110) (h114 : c ≠ 114) (h116 : c ≠ 116)
    (h118 : c ≠ 118) (h120 : c ≠ 120) (hoct : isOctDigit c = false)
    (h89 : ¬ (c = 56 ∨ c = 57)) (value ov : ℕ) (cs : List ℕ) :
    fsmRun .backslash value ov (c :: cs) = ([], some (.invalidEscape c)) := by
  simp [fsmRun, h38, h92, h97, h98, h102, h110, h114, h116, h118, h120, hoct, h89]

theorem fsmRun_hex0_digit {c : ℕ} (h : isHexDigitB c = true) (value ov : ℕ)
    (cs : List ℕ) :
    fsmRun .hex0 value ov (c :: cs) =
      fsmRun .hex1 (16 * value + hexDigitVal c) ov cs := by
  simp [fsmRun, h]

theorem fsmRun_hex0_invalid {c : ℕ} (h : isHexDigitB c = false) (value ov : ℕ)
    (cs : List ℕ) :
    fsmRun .hex0 value ov (c :: cs) = ([], some (.invalidHex c)) := by
  simp [fsmRun, h]

theorem fsmRun_hex1_digit {c : ℕ} (h : isHexDigitB c = true) (value ov : ℕ)
    (cs : List ℕ) :
    fsmRun .hex1 value ov (c :: cs) =
      consOut (.byte ((16 * value + hexDigitVal c) % 256)) (fsmRun .normal 0 ov cs) := by
  simp [fsmRun, h]

theorem fsmRun_hex1_end {c : ℕ} (h : isHexDigitB c = false) (value ov : ℕ)
    (cs : List ℕ) :
    fsmRun .hex1 value ov (c :: cs) =
      consOut (.byte (value % 256)) (fsmRun .normal 0 ov (c :: cs)) := by
  simp [fsmRun, h]

theorem fsmRun_octal1_digit {e : ℕ} (h1 : 48 ≤ e) (h2 : e ≤ 55) (v ov : ℕ)
    (cs : List ℕ) :
    fsmRun .octal1 v ov (e :: cs) = fsmRun .octal2 (8 * v + (e - 48)) ov cs := by
  have hoct : isOctDigit e = true := by
    simp only [isOctDigit, Bool.and_eq_true, decide_eq_true_eq]; omega
  simp [fsmRun, hoct]

theorem fsmRun_octal1_backref_raw {c v : ℕ} (hc : isOctDigit c = false)
    (hv : v ≠ 0) (ov : ℕ) (cs : List ℕ) :
    fsmRun .octal1 v ov (c :: cs) =
      match emitGroup ov v with
      | .inl e => ([], some e)
      | .inr o => consOut o (fsmRun .normal 0 ov (c :: cs)) := by
  simp [fsmRun, hc, hv]

theorem fsmRun_octal1_backref {c v : ℕ} (hc : isOctDigit c = false) (hv : v ≠ 0)
    {ov : ℕ} (hov : v < ov) (cs : List ℕ) :
    fsmRun .octal1 v ov (c :: cs) =
      consOut (.group v) (fsmRun .normal 0 ov (c :: cs)) := by
  have hng : ¬ ov ≤ v := by omega
  rw [fsmRun_octal1_backref_raw hc hv]
  simp [emitGroup, hng]

theorem fsmRun_octal1_unterminated {c v : ℕ} (hc : isOctDigit c = false)
    (hv : v ≠ 0) (cs : List ℕ) :
    fsmRun .octal1 v 0 (c :: cs) = ([], some (.unterminated v)) := by
  rw [fsmRun_octal1_backref_raw hc hv]
  simp [emitGroup]

theorem fsmRun_octal1_zero {c : ℕ} (hc : isOctDigit c = false) (ov : ℕ)
    (cs : List ℕ) :
    fsmRun .octal1 0 ov (c :: cs) = fsmRun .octal2 0 ov (c :: cs) := by
  simp [fsmRun, hc]

theorem fsmRun_octal2_digit {e : ℕ} (h1 : 48 ≤ e) (h2 : e ≤ 55) (v ov : ℕ)
    (cs : List ℕ) :
    fsmRun .octal2 v ov (e :: cs) =
      consOut (.byte ((8 * v + (e - 48)) % 256)) (fsmRun .normal 0 ov cs) := by
  have hoct : isOctDigit e = true := by
    simp only [isOctDigit, Bool.and_eq_true, decide_eq_true_eq]; omega
  simp [fsmRun, hoct]

theorem fsmRun_octal2_end {c v : ℕ} (hc : isOctDigit c = false) (ov : ℕ)
    (cs : List ℕ) :
    fsmRun .octal2 v ov (c :: cs) =
      consOut (.byte (v % 256)) (fsmRun .normal 0 ov (c :: cs)) := by
  simp [fsmRun, hc]

/-- Claim C6: the backslash-digit disambiguation of the template FSM.
A backslash-digit sequence is parsed greedily as an octal escape only while
that remains possible (digits `0`-`7`, at most three digits total); a digit
`8` or `9` immediately after the backslash is always a backreference; and a
single nonzero octal-looking digit not followed by another octal digit is a
backreference to that group, not an octal escape.  Stated as the FSM's
behaviour on `\d...` at any point of a template (backreference cases under
the validity bound `d - 48 < ov` so that the reference itself succeeds):

1. `\8`/`\9` emit the backreference and continue after the digit;
2. `\d` (`1 ≤ d ≤ 7`) followed by a non-octal byte emits the backreference
   and re-processes that byte;
3. `\d e` (two octal digits) followed by a non-octal byte emits the byte
   `8·d + e` and re-processes the following byte — two digits consumed;
4. `\d e f` (three octal digits) emits the byte `64·d + 8·e + f` and
   continues — never more than three digits. -/
theorem c6_octal_backref_disambiguation (ov : ℕ) (cs : List ℕ) :
    (∀ d, (d = 56 ∨ d = 57) → d - 48 < ov →
      fsmRun .normal 0 ov (92 :: d :: cs) =
        consOut (.group (d - 48)) (fsmRun .normal 0 ov cs)) ∧
    (∀ d c, 49 ≤ d → d ≤ 55 → isOctDigit c = false → d - 48 < ov →
      fsmRun .normal 0 ov (92 :: d :: c :: cs) =
        consOut (.group (d - 48)) (fsmRun .normal 0 ov (c :: cs))) ∧
    (∀ d e c, 48 ≤ d → d ≤ 55 → 48 ≤ e → e ≤ 55 → isOctDigit c = false →
      fsmRun .normal 0 ov (92 :: d :: e :: c :: cs) =
        consOut (.byte ((8 * (d - 48) + (e - 48)) % 256))
          (fsmRun .normal 0 ov (c :: cs))) ∧
    (∀ d e f, 48 ≤ d → d ≤ 55 → 48 ≤ e → e ≤ 55 → 48 ≤ f → f ≤ 55 →
      fsmRun .normal 0 ov (92 :: d :: e :: f :: cs) =
        consOut (.byte ((64 * (d - 48) + 8 * (e - 48) + (f - 48)) % 256))
          (fsmRun .normal 0 ov cs)) := by
  refine ⟨?_, ?_, ?_, ?_⟩
  · intro d hd hov
    rw [fsmRun_normal_backslash, fsmRun_backslash_89 hd hov]
  · intro d c h1 h2 hc hov
    rw [fsmRun_normal_backslash, fsmRun_backslash_oct (by omega) h2,
      fsmRun_octal1_backref hc (by omega) hov]
  · intro d e c h1 h2 h3 h4 hc
    rw [fsmRun_normal_backslash, fsmRun_backslash_oct h1 h2,
      fsmRun_octal1_digit h3 h4, fsmRun_octal2_end hc]
  · intro d e f h1 h2 h3 h4 h5 h6
    rw [fsmRun_normal_backslash, fsmRun_backslash_oct h1 h2,
      fsmRun_octal1_digit h3 h4, fsmRun_octal2_digit h5 h6]
    have harith : 8 * (8 * (d - 48) + (e - 48)) + (f - 48) =
        64 * (d - 48) + 8 * (e - 48) + (f - 48) := by ring
    rw [harith]

/-- Witness for C6: the four disambiguation cases at concrete bytes, via
the theorem (`\9`, `\2x`, `\12x`, `\123`). -/
theorem c6_octal_backref_disambiguation_witness :
    fsmRun .normal 0 10 [92, 57] = consOut (.group 9) (fsmRun .normal 0 10 []) ∧
    fsmRun .normal 0 10 [92, 50, 120] =
      consOut (.group 2) (fsmRun .normal 0 10 [120]) ∧
    fsmRun .normal 0 10 [92, 49, 50, 120] =
      consOut (.byte 10) (fsmRun .normal 0 10 [120]) ∧
    fsmRun .normal 0 10 [92, 49, 50, 51] =
      consOut (.byte 83) (fsmRun .normal 0 10 []) :=
  ⟨(c6_octal_backref_disambiguation 10 []).1 57 (Or.inr rfl) (by omega),
   (c6_octal_backref_disambiguation 10 []).2.1 50 120 (by omega) (by omega)
     (by decide) (by omega),
   by
     have := (c6_octal_backref_disambiguation 10 []).2.2.1 49 50 120 (by omega)
       (by omega) (by omega) (by omega) (by decide)
     simpa using this,
   by
     have := (c6_octal_backref_disambiguation 10 []).2.2.2 49 50 51 (by omega)
       (by omega) (by omega) (by omega) (by omega) (by omega)
     simpa using this⟩

/-! #### Rendering against an unterminated final record (`ovector_valid = 0`) -/

/-- Split an emission list at its first group reference. -/
def splitAtGroup : List Out → List Out × Option ℕ
  | [] => ([], none)
  | .byte b :: l => ((Out.byte b) :: (splitAtGroup l).1, (splitAtGroup l).2)
  | .group g :: _ => ([], some g)

/-- Truncate a run result at its first group reference, turning it into the
unterminated-final-record error with the offending reference. -/
def truncAtGroup (p : List Out × Option TErr) : List Out × Option TErr :=
  ((splitAtGroup p.1).1,
   match (splitAtGroup p.1).2 with
   | none => p.2
   | some g => some (.unterminated g))

theorem truncAtGroup_consOut_byte (b : ℕ) (p : List Out × Option TErr) :
    truncAtGroup (consOut (.byte b) p) = consOut (.byte b) (truncAtGroup p) := by
  simp only [truncAtGroup, consOut, splitAtGroup]

theorem truncAtGroup_consOut_group (g : ℕ) (p : List Out × Option TErr) :
    truncAtGroup (consOut (.group g) p) = ([], some (.unterminated g)) := by
  simp only [truncAtGroup, consOut, splitAtGroup]

theorem truncAtGroup_err (e : Option TErr) : truncAtGroup ([], e) = ([], e) := by
  simp only [truncAtGroup, splitAtGroup]

theorem splitAtGroup_none {l : List Out} (h : (splitAtGroup l).2 = none) :
    (splitAtGroup l).1 = l := by
  induction l with
  | nil => rfl
  | cons o l ih =>
    cases o with
    | byte b =>
      simp only [splitAtGroup] at h ⊢
      rw [ih h]
    | group g => simp [splitAtGroup] at h

theorem splitAtGroup_mem {l : List Out} {g : ℕ} (h : (splitAtGroup l).2 = some g) :
    Out.group g ∈ l := by
  induction l with
  | nil => simp [splitAtGroup] at h
  | cons o l ih =>
    cases o with
    | byte b =>
      simp only [splitAtGroup] at h
      exact List.mem_cons_of_mem _ (ih h)
    | group g' =>
      simp only [splitAtGroup, Option.some.injEq] at h
      rw [← h]
      exact List.mem_cons_self _ _

theorem splitAtGroup_ne_none {l : List Out} {g : ℕ} (h : Out.group g ∈ l) :
    (splitAtGroup l).2 ≠ none := by
  induction l with
  | nil => simp at h
  | cons o l ih =>
    cases o with
    | byte b =>
      simp only [splitAtGroup]
      exact ih (by simpa using h)
    | group g' => simp [splitAtGroup]

theorem splitAtGroup_none_of_no_group {l : List Out}
    (h : ∀ g, Out.group g ∉ l) : (splitAtGroup l).2 = none := by
  induction l with
  | nil => rfl
  | cons o l ih =>
    cases o with
    | byte b =>
      simp only [splitAtGroup]
      exact ih fun g hg => h g (List.mem_cons_of_mem _ hg)
    | group g' => exact absurd (List.mem_cons_self _ _) (h g')

/-- Rendering with `ovector_valid = 0` (the matcher found no match: an
unterminated final record, zero captured groups) is the rendering with all
groups available, truncated at the first group reference, which becomes the
fatal unterminated-record error. -/
theorem fsmRun_zero_eq_trunc :
    ∀ (N : ℕ) (cs : List ℕ) (st : TState) (value : ℕ),
      3 * cs.length + stateRank st ≤ N →
      (st = .octal1 → value ≤ 9) →
      fsmRun st value 0 cs = truncAtGroup (fsmRun st value 10 cs) := by
  intro N
  induction N with
  | zero =>
    intro cs st value hle _
    have : cs = [] := by
      cases cs with
      | nil => rfl
      | cons c cs => simp [stateRank] at hle
    subst this
    simp [fsmRun, truncAtGroup_err]
  | succ N ih =>
    intro cs st value hle hv
    cases cs with
    | nil => simp [fsmRun, truncAtGroup_err]
    | cons c cs =>
      simp only [List.length_cons] at hle
      cases st with
      | normal =>
        by_cases h1 : c = 92
        · subst h1
          rw [fsmRun_normal_backslash, fsmRun_normal_backslash]
          exact ih cs .backslash 0 (by simp [stateRank] at hle ⊢; omega)
            (fun h => TState.noConfusion h)
        · by_cases h2 : c = 38
          · subst h2
            rw [fsmRun_normal_amp_unterminated,
              fsmRun_normal_amp_group (show (0 : ℕ) < 10 by omega),
              truncAtGroup_consOut_group]
          · by_cases h3 : c = 0
            · subst h3
              rw [fsmRun_normal_nul, fsmRun_normal_nul]
              exact ih cs .normal 0 (by simp [stateRank] at hle ⊢; omega)
                (fun h => TState.noConfusion h)
            · rw [fsmRun_normal_other h1 h2 h3, fsmRun_normal_other h1 h2 h3,
                truncAtGroup_consOut_byte,
                ih cs .normal 0 (by simp [stateRank] at hle ⊢; omega)
                  (fun h => TState.noConfusion h)]
      | backslash =>
        by_cases hx : c = 120
        · subst hx
          rw [fsmRun_backslash_hex, fsmRun_backslash_hex]
          exact ih cs .hex0 0 (by simp [stateRank] at hle ⊢; omega)
            (fun h => TState.noConfusion h)
        · by_cases hoct : isOctDigit c = true
          · have hcb : 48 ≤ c ∧ c ≤ 55 := by
              simp only [isOctDigit, Bool.and_eq_true, decide_eq_true_eq] at hoct
              omega
            rw [fsmRun_backslash_oct hcb.1 hcb.2, fsmRun_backslash_oct hcb.1 hcb.2]
            exact ih cs .octal1 (c - 48) (by simp [stateRank] at hle ⊢; omega)
              (fun _ => by omega)
          · have hoct' : isOctDigit c = false := by simpa using hoct
            by_cases h89 : c = 56 ∨ c = 57
            · rw [fsmRun_backslash_89_unterminated h89,
                fsmRun_backslash_89 h89
                  (show c - 48 < 10 by rcases h89 with rfl | rfl <;> omega),
                truncAtGroup_consOut_group]
            · by_cases hs : c = 38 ∨ c = 92 ∨ c = 97 ∨ c = 98 ∨ c = 102 ∨
                c = 110 ∨ c = 114 ∨ c = 116 ∨ c = 118
              · rw [fsmRun_backslash_simple hs, fsmRun_backslash_simple hs,
                  truncAtGroup_consOut_byte,
                  ih cs .normal 0 (by simp [stateRank] at hle ⊢; omega)
                    (fun h => TState.noConfusion h)]
              · push_neg at hs
                obtain ⟨n38, n92, n97, n98, n102, n110, n114, n116, n118⟩ := hs
                rw [fsmRun_backslash_invalid n38 n92 n97 n98 n102 n110 n114 n116
                    n118 hx hoct' h89,
                  fsmRun_backslash_invalid n38 n92 n97 n98 n102 n110 n114 n116
                    n118 hx hoct' h89, truncAtGroup_err]
      | hex0 =>
        by_cases h1 : isHexDigitB c = true
        · rw [fsmRun_hex0_digit h1, fsmRun_hex0_digit h1]
          exact ih cs .hex1 (16 * value + hexDigitVal c)
            (by simp [stateRank] at hle ⊢; omega) (fun h => TState.noConfusion h)
        · have h1' : isHexDigitB c = false := by simpa using h1
          rw [fsmRun_hex0_invalid h1', fsmRun_hex0_invalid h1', truncAtGroup_err]
      | hex1 =>
        by_cases h1 : isHexDigitB c = true
        · rw [fsmRun_hex1_digit h1, fsmRun_hex1_digit h1,
            truncAtGroup_consOut_byte,
            ih cs .normal 0 (by simp [stateRank] at hle ⊢; omega)
              (fun h => TState.noConfusion h)]
        · have h1' : isHexDigitB c = false := by simpa using h1
          rw [fsmRun_hex1_end h1', fsmRun_hex1_end h1', truncAtGroup_consOut_byte,
            ih (c :: cs) .normal 0 (by simp [stateRank] at hle ⊢; omega)
              (fun h => TState.noConfusion h)]
      | octal1 =>
        have hval : value ≤ 9 := hv rfl
        by_cases h1 : isOctDigit c = true
        · have hcb : 48 ≤ c ∧ c ≤ 55 := by
            simp only [isOctDigit, Bool.and_eq_true, decide_eq_true_eq] at h1
            omega
          rw [fsmRun_octal1_digit hcb.1 hcb.2, fsmRun_octal1_digit hcb.1 hcb.2]
          exact ih cs .octal2 (8 * value + (c - 48))
            (by simp [stateRank] at hle ⊢; omega) (fun h => TState.noConfusion h)
        · have h1' : isOctDigit c = false := by simpa using h1
          by_cases h2 : value = 0
          · subst h2
            rw [fsmRun_octal1_zero h1', fsmRun_octal1_zero h1']
            exact ih (c :: cs) .octal2 0 (by simp [stateRank] at hle ⊢; omega)
              (fun h => TState.noConfusion h)
          · rw [fsmRun_octal1_unterminated h1' h2,
              fsmRun_octal1_backref h1' h2 (show value < 10 by omega),
              truncAtGroup_consOut_group]
      | octal2 =>
        by_cases h1 : isOctDigit c = true
        · have hcb : 48 ≤ c ∧ c ≤ 55 := by
            simp only [isOctDigit, Bool.and_eq_true, decide_eq_true_eq] at h1
            omega
          rw [fsmRun_octal2_digit hcb.1 hcb.2, fsmRun_octal2_digit hcb.1 hcb.2,
            truncAtGroup_consOut_byte,
            ih cs .normal 0 (by simp [stateRank] at hle ⊢; omega)
              (fun h => TState.noConfusion h)]
        · have h1' : isOctDigit c = false := by simpa using h1
          rw [fsmRun_octal2_end h1', fsmRun_octal2_end h1',
            truncAtGroup_consOut_byte,
            ih (c :: cs) .normal 0 (by simp [stateRank] at hle ⊢; omega)
              (fun h => TState.noConfusion h)]

/-- Claim C8: when rendering against an unterminated final record (the
matcher found no match, so `ovector_valid = 0`), any occurrence of `&` or a
backreference `\N` in an otherwise-valid template is a fatal
unterminated-final-record error reported with the offending group index, and
this is the only condition under which rendering such a template fails for
that record: the hypothesis says the template renders cleanly when all
groups `0`-`9` are available (`ov = 10`); then (1) if that rendering
references any group, rendering against the unterminated record fails with
`.unterminated g` for a referenced `g`, and (2) if it references no group,
rendering against the unterminated record succeeds with identical output. -/
theorem c8_unterminated_render (cs : List ℕ)
    (_hok : (renderDelim 10 cs).2 = none) :
    ((∃ g, Out.group g ∈ (renderDelim 10 cs).1) →
      ∃ g, Out.group g ∈ (renderDelim 10 cs).1 ∧
        (renderDelim 0 cs).2 = some (.unterminated g)) ∧
    ((∀ g, Out.group g ∉ (renderDelim 10 cs).1) →
      renderDelim 0 cs = renderDelim 10 cs) := by
  have key : renderDelim 0 cs = truncAtGroup (renderDelim 10 cs) :=
    fsmRun_zero_eq_trunc (3 * (cs ++ [0]).length) (cs ++ [0]) .normal 0
      (by simp [stateRank]) (fun h => TState.noConfusion h)
  constructor
  · rintro ⟨g, hg⟩
    cases hsp : (splitAtGroup (renderDelim 10 cs).1).2 with
    | none => exact absurd hsp (splitAtGroup_ne_none hg)
    | some g0 =>
      refine ⟨g0, splitAtGroup_mem hsp, ?_⟩
      rw [key]
      simp only [truncAtGroup, hsp]
  · intro hnone
    have hsp : (splitAtGroup (renderDelim 10 cs).1).2 = none :=
      splitAtGroup_none_of_no_group hnone
    rw [key]
    simp only [truncAtGroup, hsp]
    rw [splitAtGroup_none hsp]

/-- Witness for C8: the template `&` (rendered bytes `[38]`, i.e. the whole
match) renders cleanly with groups available, but against the unterminated
final record fails with the unterminated-record error naming group 0. -/
theorem c8_unterminated_render_witness :
    (renderDelim 10 [38]).2 = none ∧
    (∃ g, Out.group g ∈ (renderDelim 10 [38]).1 ∧
      (renderDelim 0 [38]).2 = some (.unterminated g)) :=
  ⟨by simp [renderDelim, fsmRun, emitGroup, consOut],
   (c8_unterminated_render [38] (by simp [renderDelim, fsmRun, emitGroup, consOut])).1
     ⟨0, by simp [renderDelim, fsmRun, emitGroup, consOut]⟩⟩

/-! ### `rec_next` (`part_001` lines 292-458)

The record source is embedded with its environment made explicit: the
regular-expression matcher is an oracle (`Matcher`), and the `read`, `write`
and `malloc` calls consume scripted results (`Env`).  The machine state
`SrcState` holds the spool buffer `buf_p` (as its byte list, whose length is
`buf_size`), the indices `buf_first_write`, `buf_first_read`, `buf_last`,
the `tmp != fd` flag (`spooling`), the spool offset `offset`, the
memory-budget target `*memory_cache` and the remaining bytes of the
underlying file descriptor (`input`). -/

inductive MatchRes where
  | merror
  | nomatch
  | found (s e : ℕ)
  deriving DecidableEq, Repr

/-- `pcre_exec(re, extra, buf_p, buf_last - buf_first_read, buf_first_read,
eof ? 0 : PCRE_NOTEOL, ...)` as an oracle over its data arguments. -/
def Matcher : Type := List ℕ → ℕ → ℕ → Bool → MatchRes

inductive ReadRes where
  | rerr (e : ℤ)
  | rok (n : ℕ)
  deriving DecidableEq, Repr

inductive WriteRes where
  | werr (e : ℤ)
  | wok (n : ℕ)
  deriving DecidableEq, Repr

structure Env where
  reads : List ReadRes
  writes : List WriteRes
  allocs : List Bool
  deriving DecidableEq, Repr

structure SrcState where
  buf : List ℕ
  firstWrite : ℕ
  firstRead : ℕ
  last : ℕ
  spooling : Bool
  offset : ℤ
  memoryCache : ℤ
  input : List ℕ
  deriving DecidableEq, Repr

inductive RecLoc where
  | offset (o : ℤ)
  | mem (bytes : List ℕ)
  deriving DecidableEq, Repr

/-- `struct rec`: the signed length (negated for in-memory records), the
file index `f_idx` (negative or `INT_MIN` marks the last record), and the
location (spool offset or in-memory bytes). -/
structure Rec where
  len : ℤ
  fIdx : ℤ
  loc : RecLoc
  deriving DecidableEq, Repr

/-- The `MIN` macro of `part_001` line 36. -/
def cMIN (x y : ℕ) : ℕ := if x < y then x else y

/-- The flush loop (lines 348-361): `for (nbytes = 0; fw < fr; nbytes =
write(tmp, &buf[fw], fr - fw)) { if (nbytes == -1) goto err; fw += nbytes; }`.
`prev` is the pending `nbytes` (a failed write's errno, or a byte count not
yet added); each `write` consumes the next script entry and transfers at
most the requested `fr - fw` bytes.  Returns the failing errno or the final
`fw` together with the remaining write script; `none` means the script or
fuel ran out. -/
def flushLoop : ℕ → Sum ℤ ℕ → ℕ → ℕ → List WriteRes →
    Option (Option ℤ × ℕ × List WriteRes)
  | 0, _, _, _, _ => none
  | fuel + 1, prev, fw, fr, ws =>
    if fw < fr then
      match prev with
      | .inl e => some (some e, fw, ws)
      | .inr n =>
        match ws with
        | [] => none
        | .werr e :: ws2 => flushLoop fuel (.inl e) (fw + n) fr ws2
        | .wok m :: ws2 =>
          flushLoop fuel (.inr (cMIN m (fr - (fw + n)))) (fw + n) fr ws2
    else some (none, fw, ws)

/-- Slide-or-enlarge (lines 364-387): keep the unprocessed segment
`buf[fr..fr+L)` and either move it to the front of the same buffer — taken
when `buf_size - L >= MAX(buf_size / 4, BUFSIZ)`, with the source's `MAX`
macro actually computing the minimum (`cMAX`) — or double the buffer,
guarded by `buf_size > INT_MAX / 2` (`ENOMEM`) and by `malloc`, whose
scripted failure also produces `ENOMEM`. -/
def slideEnlarge (buf : List ℕ) (fr L : ℕ) (allocs : List Bool) :
    Option (Sum (ℤ × List Bool) (List ℕ × List Bool)) :=
  if cMAX (buf.length / 4) cBUFSIZ ≤ buf.length - L then
    some (.inr ((buf.drop fr).take L ++ buf.drop L, allocs))
  else if (buf.length : ℤ) > INT_MAX / 2 then
    some (.inl (ENOMEM, allocs))
  else
    match allocs with
    | [] => none
    | false :: as2 => some (.inl (ENOMEM, as2))
    | true :: as2 =>
      some (.inr ((buf.drop fr).take L ++ List.replicate (2 * buf.length - L) 0,
        as2))

/-- One `read(fd, &buf_p[buf_last], buf_size - buf_last)` (lines 389-396),
taking the delivered bytes from the head of `input`: a scripted error
surfaces directly (`goto err`), and a scripted `rok n` delivers
`min n (min (buf_size - buf_last) available)` bytes into the buffer at
`buf_last`. -/
def doRead (buf1 : List ℕ) (L : ℕ) (input : List ℕ) (rs : List ReadRes) :
    Option (Sum (ℤ × List ReadRes) (List ℕ × ℕ × List ℕ × List ReadRes)) :=
  match rs with
  | [] => none
  | .rerr e :: rs2 => some (.inl (e, rs2))
  | .rok n :: rs2 =>
    let w := cMIN n (cMIN (buf1.length - L) input.length)
    some (.inr (buf1.take L ++ input.take w ++ buf1.drop (L + w), w,
      input.drop w, rs2))

inductive LoopRes where
  | lerr (e : ℤ)
  | matched (s e : ℕ) (eof : Bool)
  deriving DecidableEq, Repr

/-- The match-or-refill loop of `rec_next` (lines 312-397): try the matcher;
a positive result or a synthesized unterminated final record exits the loop,
`errno = 0` at true end of stream and `EINVAL` on matcher failure exit the
call, and otherwise processed data is flushed (when spooling), the buffer is
slid or enlarged, and more data is read — with read and write errors
surfacing directly (`goto err`). -/
def recNextLoop (M : Matcher) : ℕ → Bool → SrcState → Env →
    Option (LoopRes × SrcState × Env)
  | 0, _, _, _ => none
  | fuel + 1, eof, st, env =>
    match M st.buf (st.last - st.firstRead) st.firstRead (!eof) with
    | .found s e => some (.matched s e eof, st, env)
    | .merror => some (.lerr EINVAL, st, env)
    | .nomatch =>
      if eof = true then
        if st.firstRead < st.last then
          some (.matched st.firstRead st.last eof, st, env)
        else
          some (.lerr 0, st, env)
      else
        match (if st.spooling = true then
                flushLoop (env.writes.length + 2) (.inr 0) st.firstWrite
                  st.firstRead env.writes
               else some (none, st.firstWrite, env.writes)) with
        | none => none
        | some (some e, fw1, ws1) =>
          some (.lerr e, { st with firstWrite := fw1 }, { env with writes := ws1 })
        | some (none, fw1, ws1) =>
          match slideEnlarge st.buf st.firstRead (st.last - st.firstRead)
              env.allocs with
          | none => none
          | some (.inl (e, as1)) =>
            some (.lerr e, { st with firstWrite := fw1 },
              { env with writes := ws1, allocs := as1 })
          | some (.inr (buf1, as1)) =>
            match doRead buf1 (st.last - st.firstRead) st.input env.reads with
            | none => none
            | some (.inl (e, rs1)) =>
              some (.lerr e,
                { st with buf := buf1, firstWrite := 0, firstRead := 0,
                          last := st.last - st.firstRead },
                { env with writes := ws1, allocs := as1, reads := rs1 })
            | some (.inr (buf2, w, input1, rs1)) =>
              recNextLoop M fuel (decide (w = 0))
                { st with buf := buf2, firstWrite := 0, firstRead := 0,
                          last := st.last - st.firstRead + w, input := input1 }
                { env with writes := ws1, allocs := as1, reads := rs1 }

/-- `rec_next` (lines 292-458): run the loop; on a loop exit with a record,
fill in the caller's record — length `ovector[1] - buf_first_read`, file
index with the end-of-file encoding of lines 406-414, and either in-memory
retention under the memory budget (lines 419-439, guarded by `tmp != fd`,
`buf_first_read == buf_first_write`, the budget check and `malloc`) or an
offset record — advance `buf_first_read` to `ovector[1]`, and return 0.
All error exits return `-1` with the errno, leaving the record untouched. -/
def recNext (M : Matcher) (fuel rfd : ℕ) (recArg : Option Rec)
    (st : SrcState) (env : Env) :
    Option (RecNextOutcome × Option Rec × SrcState × Env) :=
  match recNextLoop M fuel false st env with
  | none => none
  | some (.lerr e, st1, env1) => some (.err e, recArg, st1, env1)
  | some (.matched _ e2 eof, st1, env1) =>
    let recLen : ℕ := e2 - st1.firstRead
    let fIdx : ℤ :=
      if eof = true then (if rfd = 0 then INT_MIN else -(rfd : ℤ))
      else (rfd : ℤ)
    match recArg with
    | some _ =>
      if st1.spooling = true ∧ st1.firstRead = st1.firstWrite ∧
          (recEstMemUse recLen : ℤ) ≤ st1.memoryCache then
        match env1.allocs with
        | [] => none
        | true :: as2 =>
          some (.ok (recLen : ℤ),
            some ⟨-(recLen : ℤ), fIdx,
              .mem ((st1.buf.drop st1.firstRead).take recLen)⟩,
            { st1 with firstWrite := st1.firstWrite + recLen,
                       memoryCache := st1.memoryCache - (recEstMemUse recLen : ℤ),
                       firstRead := e2 },
            { env1 with allocs := as2 })
        | false :: as2 =>
          some (.ok (recLen : ℤ),
            some ⟨(recLen : ℤ), fIdx, .offset st1.offset⟩,
            { st1 with offset := st1.offset + (recLen : ℤ), firstRead := e2 },
            { env1 with allocs := as2 })
      else
        some (.ok (recLen : ℤ),
          some ⟨(recLen : ℤ), fIdx, .offset st1.offset⟩,
          { st1 with offset := st1.offset + (recLen : ℤ), firstRead := e2 },
          env1)
    | none =>
      if st1.spooling = true ∧ st1.firstRead = st1.firstWrite then
        some (.ok (recLen : ℤ), none,
          { st1 with firstWrite := st1.firstWrite + recLen, firstRead := e2 },
          env1)
      else
        some (.ok (recLen : ℤ), none,
          { st1 with offset := st1.offset + (recLen : ℤ), firstRead := e2 },
          env1)

/-- An oracle for a matcher that never finds a match (and never fails). -/
def Mnone : Matcher := fun _ _ _ _ => .nomatch

/-- A scripted read result that delivers at least one byte. -/
def isPosRead : ReadRes → Bool
  | .rok (_ + 1) => true
  | _ => false

theorem recNextLoop_nomatch_step (M : Matcher) (f : ℕ) (st : SrcState)
    (env : Env)
    (hM : M st.buf (st.last - st.firstRead) st.firstRead true = .nomatch)
    (hsp : st.spooling = false) :
    recNextLoop M (f + 1) false st env =
      match slideEnlarge st.buf st.firstRead (st.last - st.firstRead)
          env.allocs with
      | none => none
      | some (.inl (e, as1)) =>
        some (.lerr e, { st with firstWrite := st.firstWrite },
          { env with writes := env.writes, allocs := as1 })
      | some (.inr (buf1, as1)) =>
        match doRead buf1 (st.last - st.firstRead) st.input env.reads with
        | none => none
        | some (.inl (e, rs1)) =>
          some (.lerr e,
            { st with buf := buf1, firstWrite := 0, firstRead := 0,
                      last := st.last - st.firstRead },
            { env with writes := env.writes, allocs := as1, reads := rs1 })
        | some (.inr (buf2, w, input1, rs1)) =>
          recNextLoop M f (decide (w = 0))
            { st with buf := buf2, firstWrite := 0, firstRead := 0,
                      last := st.last - st.firstRead + w, input := input1 }
            { env with writes := env.writes, allocs := as1, reads := rs1 } := by
  simp [recNextLoop, hM, hsp]

theorem recNextLoop_eof_step (M : Matcher) (f : ℕ) (st : SrcState) (env : Env)
    (hM : M st.buf (st.last - st.firstRead) st.firstRead false = .nomatch) :
    recNextLoop M (f + 1) true st env =
      if st.firstRead < st.last then
        some (.matched st.firstRead st.last true, st, env)
      else some (.lerr 0, st, env) := by
  simp [recNextLoop, hM]

theorem doRead_rok (buf1 : List ℕ) (L : ℕ) (input : List ℕ) (m : ℕ)
    (rs2 : List ReadRes) :
    doRead buf1 L input (ReadRes.rok m :: rs2) =
      some (.inr (buf1.take L ++
          input.take (cMIN m (cMIN (buf1.length - L) input.length)) ++
          buf1.drop (L + cMIN m (cMIN (buf1.length - L) input.length)),
        cMIN m (cMIN (buf1.length - L) input.length),
        input.drop (cMIN m (cMIN (buf1.length - L) input.length)), rs2)) := rfl

/-- Running `rec_next`'s loop with a matcher that never matches, a
non-spooling source, and an environment whose reads always deliver data
while it lasts: the loop drains `input` into the buffer and exits with the
unterminated final record spanning exactly the unprocessed bytes (or, with
nothing unprocessed, the end-of-stream exit `errno = 0`). -/
theorem c5Loop :
    ∀ n : ℕ, ∀ fuel : ℕ, ∀ st : SrcState, ∀ env : Env,
      st.input.length = n →
      st.spooling = false →
      st.firstRead ≤ st.last →
      st.last ≤ st.buf.length →
      4 ≤ st.buf.length →
      st.last - st.firstRead + st.input.length + cBUFSIZ ≤ 2 ^ 30 →
      (∀ r ∈ env.reads, isPosRead r = true) →
      n + 1 ≤ env.reads.length →
      (∀ a ∈ env.allocs, a = true) →
      n + 1 ≤ env.allocs.length →
      n + 2 ≤ fuel →
      ∃ st' env',
        recNextLoop Mnone fuel false st env =
          some ((if 0 < st.last - st.firstRead + st.input.length
                 then LoopRes.matched 0 (st.last - st.firstRead + st.input.length) true
                 else LoopRes.lerr 0), st', env') ∧
        st'.firstRead = 0 ∧ st'.firstWrite = 0 ∧
        st'.last = st.last - st.firstRead + st.input.length ∧
        st'.buf.take (st.last - st.firstRead + st.input.length) =
          (st.buf.drop st.firstRead).take (st.last - st.firstRead) ++ st.input ∧
        st'.spooling = false ∧ st'.offset = st.offset ∧
        st'.memoryCache = st.memoryCache := by
  intro n
  induction n using Nat.strong_induction_on with
  | _ n ih =>
    intro fuel st env hlen hsp hfrl hls h4 hbound hreads hrlen hallocs halen hfuel
    obtain ⟨f, rfl⟩ : ∃ f, fuel = f + 1 := ⟨fuel - 1, by omega⟩
    rw [recNextLoop_nomatch_step Mnone f st env rfl hsp]
    set L := st.last - st.firstRead with hLdef
    obtain ⟨buf1, as1, hse, hseg, hL1, h41, hall1, halen1⟩ :
        ∃ buf1 as1,
          slideEnlarge st.buf st.firstRead L env.allocs =
            some (.inr (buf1, as1)) ∧
          buf1.take L = (st.buf.drop st.firstRead).take L ∧
          L < buf1.length ∧
          4 ≤ buf1.length ∧
          (∀ a ∈ as1, a = true) ∧ n ≤ as1.length := by
      have hsl : ((st.buf.drop st.firstRead).take L).length = L := by
        simp only [List.length_take, List.length_drop]
        omega
      by_cases hslide : cMAX (st.buf.length / 4) cBUFSIZ ≤ st.buf.length - L
      · have hcm : 1 ≤ cMAX (st.buf.length / 4) cBUFSIZ := by
          have h14 : 1 ≤ st.buf.length / 4 := (Nat.one_le_div_iff (by omega)).mpr h4
          simp only [cMAX, cBUFSIZ]
          split <;> omega
        refine ⟨(st.buf.drop st.firstRead).take L ++ st.buf.drop L, env.allocs,
          ?_, List.take_left' hsl, ?_, ?_, hallocs, by omega⟩
        · simp only [slideEnlarge, if_pos hslide]
        · simp only [List.length_append, hsl, List.length_drop]
          omega
        · simp only [List.length_append, hsl, List.length_drop]
          omega
      · have hcmle : cMAX (st.buf.length / 4) cBUFSIZ ≤ 1024 := by
          simp only [cMAX, cBUFSIZ]
          split <;> omega
        have hsize : st.buf.length < 2 ^ 30 := by
          simp only [cBUFSIZ] at hbound
          omega
        have hguard : ¬ ((st.buf.length : ℤ) > INT_MAX / 2) := by
          have hint : (INT_MAX : ℤ) / 2 = 2 ^ 30 - 1 := by decide
          rw [hint]
          push_cast
          omega
        obtain ⟨a, as2, hal⟩ : ∃ a as2, env.allocs = a :: as2 := by
          cases hA : env.allocs with
          | nil => rw [hA] at halen; simp at halen
          | cons a as2 => exact ⟨a, as2, rfl⟩
        have ha : a = true := hallocs a (by rw [hal]; exact List.mem_cons_self _ _)
        subst ha
        refine ⟨(st.buf.drop st.firstRead).take L ++
            List.replicate (2 * st.buf.length - L) 0, as2,
          ?_, List.take_left' hsl, ?_, ?_,
          fun b hb => hallocs b (by rw [hal]; exact List.mem_cons_of_mem _ hb), ?_⟩
        · simp only [slideEnlarge, if_neg hslide, if_neg hguard, hal]
        · simp only [List.length_append, hsl, List.length_replicate]
          omega
        · simp only [List.length_append, hsl, List.length_replicate]
          omega
        · have : env.allocs.length = as2.length + 1 := by rw [hal]; rfl
          omega
    simp only [hse]
    obtain ⟨m, rs2, hre⟩ : ∃ m rs2, env.reads = ReadRes.rok (m + 1) :: rs2 := by
      cases hR : env.reads with
      | nil => rw [hR] at hrlen; simp at hrlen
      | cons r rs =>
        have hr := hreads r (by rw [hR]; exact List.mem_cons_self _ _)
        cases r with
        | rerr e => simp [isPosRead] at hr
        | rok k =>
          cases k with
          | zero => simp [isPosRead] at hr
          | succ k => exact ⟨k, rs, rfl⟩
    rw [hre]
    simp only [doRead_rok]
    set w := cMIN (m + 1) (cMIN (buf1.length - L) st.input.length) with hwdef
    have hwle_input : w ≤ st.input.length := by
      rw [hwdef]
      simp only [cMIN]
      split <;> split <;> omega
    have hwle_space : w ≤ buf1.length - L := by
      rw [hwdef]
      simp only [cMIN]
      split <;> split <;> omega
    have hxlen : (buf1.take L).length = L := by
      simp only [List.length_take]
      omega
    rcases Nat.eq_zero_or_pos n with hn0 | hn1
    · -- input already drained: the read returns 0 bytes and sets eof
      have hinp : st.input = [] := List.length_eq_zero.mp (by omega)
      have hw0 : w = 0 := by
        rw [hwdef, hinp]
        simp [cMIN]
      rw [hw0, hinp]
      simp only [List.take_nil, List.drop_nil, List.append_nil, List.length_nil,
        Nat.add_zero, Nat.sub_zero, decide_True]
      obtain ⟨f2, rfl⟩ : ∃ f2, f = f2 + 1 := ⟨f - 1, by omega⟩
      rw [recNextLoop_eof_step Mnone f2 _ _ rfl]
      simp only [List.take_nil, List.drop_nil, List.append_nil, List.length_nil,
        Nat.add_zero, Nat.sub_zero]
      have htake : ((buf1.take L ++ buf1.drop L).take L : List ℕ) = buf1.take L :=
        List.take_left' hxlen
      by_cases hL : 0 < L
      · rw [if_pos hL, if_pos hL]
        exact ⟨_, _, rfl, rfl, rfl, rfl, by rw [htake, hseg], hsp, rfl, rfl⟩
      · rw [if_neg hL, if_neg hL]
        exact ⟨_, _, rfl, rfl, rfl, rfl, by rw [htake, hseg], hsp, rfl, rfl⟩
    · -- at least one fresh byte arrives: recurse on the shorter input
      have hw1 : 1 ≤ w := by
        rw [hwdef]
        simp only [cMIN]
        split <;> split <;> omega
      rw [show (decide (w = 0)) = false from by
        simp only [decide_eq_false_iff_not]
        omega]
      have hylen : (st.input.take w).length = w := by
        simp only [List.length_take]
        omega
      obtain ⟨st', env', hrun, hfr', hfw', hlast', hbuf', hsp', hoff', hmc'⟩ :=
        ih (n - w) (by omega) f
          ⟨buf1.take L ++ st.input.take w ++ buf1.drop (L + w), 0, 0, L + w,
            st.spooling, st.offset, st.memoryCache, st.input.drop w⟩
          ⟨rs2, env.writes, as1⟩
          (by simp only [List.length_drop]; omega)
          hsp
          (Nat.zero_le _)
          (by
            simp only [List.length_append, hxlen, hylen, List.length_drop]
            omega)
          (by
            simp only [List.length_append, hxlen, hylen, List.length_drop]
            omega)
          (by
            simp only [Nat.sub_zero, List.length_drop]
            omega)
          (fun r hr => hreads r (by rw [hre]; exact List.mem_cons_of_mem _ hr))
          (by
            have : env.reads.length = rs2.length + 1 := by rw [hre]; rfl
            simp only [List.length_drop]
            omega)
          hall1
          (by simp only [List.length_drop]; omega)
          (by omega)
      simp only [Nat.sub_zero, List.drop_zero, List.length_drop]
        at hrun hlast' hbuf'
      have hrem : L + w + (st.input.length - w) = L + st.input.length := by
        omega
      refine ⟨st', env', ?_, hfr', hfw', ?_, ?_, hsp', hoff', hmc'⟩
      · rw [hrun, hrem]
      · rw [hlast']
        omega
      · rw [hrem] at hbuf'
        rw [hbuf']
        rw [show ((buf1.take L ++ st.input.take w ++ buf1.drop (L + w)).take (L + w) :
            List ℕ) = buf1.take L ++ st.input.take w from
          List.take_left' (by simp only [List.length_append, hxlen, hylen])]
        rw [hseg, List.append_assoc, List.take_append_drop]

/-- Claim C5: for a call of `rec_next` in which the matcher finds no match
(oracle `Mnone`), on a non-spooling source whose scripted reads always
deliver at least one byte while input remains and whose unprocessed data
respects the buffer growth bound: if unprocessed bytes remain (in the
buffer or still unread from the descriptor), the call succeeds with a final
unterminated record spanning exactly those remaining bytes — its length is
their count, its negative `f_idx` marks it as last, and the buffer prefix
covering the record holds exactly those bytes; if nothing remains, the call
returns `-1` with `errno = 0`, the end-of-stream signal. -/
theorem c5_no_match_eof (rfd : ℕ) (recIn : Rec) (st : SrcState) (env : Env)
    (hsp : st.spooling = false)
    (hfrl : st.firstRead ≤ st.last) (hls : st.last ≤ st.buf.length)
    (h4 : 4 ≤ st.buf.length)
    (hbound : st.last - st.firstRead + st.input.length + cBUFSIZ ≤ 2 ^ 30)
    (hreads : ∀ r ∈ env.reads, isPosRead r = true)
    (hrlen : st.input.length + 1 ≤ env.reads.length)
    (hallocs : ∀ a ∈ env.allocs, a = true)
    (halen : st.input.length + 1 ≤ env.allocs.length) :
    (0 < st.last - st.firstRead + st.input.length →
      ∃ r st' env',
        recNext Mnone (st.input.length + 2) rfd (some recIn) st env =
          some (.ok ((st.last - st.firstRead + st.input.length : ℕ) : ℤ),
            some r, st', env') ∧
        r.len = ((st.last - st.firstRead + st.input.length : ℕ) : ℤ) ∧
        r.fIdx < 0 ∧ r.loc = .offset st.offset ∧
        st'.buf.take (st.last - st.firstRead + st.input.length) =
          (st.buf.drop st.firstRead).take (st.last - st.firstRead) ++ st.input) ∧
    (st.last - st.firstRead + st.input.length = 0 →
      ∃ st' env',
        recNext Mnone (st.input.length + 2) rfd (some recIn) st env =
          some (.err 0, some recIn, st', env')) := by
  obtain ⟨st', env', hrun, hfr', hfw', hlast', hbuf', hsp', hoff', hmc'⟩ :=
    c5Loop st.input.length (st.input.length + 2) st env rfl hsp hfrl hls h4
      hbound hreads hrlen hallocs halen (le_refl _)
  constructor
  · intro hpos
    rw [if_pos hpos] at hrun
    have hfidx : (if rfd = 0 then INT_MIN else -(rfd : ℤ)) < 0 := by
      split
      · decide
      · rename_i hr
        have h1 : 1 ≤ rfd := Nat.one_le_iff_ne_zero.mpr hr
        omega
    have hcond : ¬ (st'.spooling = true ∧ st'.firstRead = st'.firstWrite ∧
        (recEstMemUse (st.last - st.firstRead + st.input.length -
          st'.firstRead) : ℤ) ≤ st'.memoryCache) := by
      rw [hsp']
      simp
    simp only [recNext, hrun, hfr', Nat.sub_zero]
    rw [if_neg (by rw [hfr'] at hcond; simpa using hcond)]
    refine ⟨_, _, _, rfl, rfl, hfidx, ?_, ?_⟩
    · rw [hoff']
    · exact hbuf'
  · intro hzero
    rw [if_neg (by omega)] at hrun
    exact ⟨st', env', by simp only [recNext, hrun]⟩

def rec0 : Rec := ⟨0, 0, .offset 0⟩

def st5 : SrcState := ⟨[65, 66, 67, 68], 0, 1, 2, false, 5, 0, [70]⟩

def env5 : Env := ⟨[.rok 9, .rok 9], [], [true, true]⟩

/-- Witness for C5: a four-byte buffer with one unprocessed byte, one byte
still unread: `rec_next` returns the two-byte unterminated final record. -/
theorem c5_no_match_eof_witness :
    ∃ r st' env',
      recNext Mnone 3 7 (some rec0) st5 env5 =
        some (.ok 2, some r, st', env') ∧
      r.len = 2 ∧ r.fIdx < 0 ∧ r.loc = .offset 5 ∧
      st'.buf.take 2 = [66, 70] :=
  (c5_no_match_eof 7 rec0 st5 env5 (by decide) (by decide) (by decide)
    (by decide) (by decide) (by decide) (by decide) (by decide) (by decide)).1
    (by decide)

def st9 : SrcState := ⟨[0, 0, 0, 0], 0, 0, 0, false, 0, 0, [7]⟩

def env9 : Env := ⟨[.rerr EINTR], [], [true]⟩

/-- Counterexample to claim C9: a `read` failing with `EINTR` is *not*
retried inside `rec_next` — the error surfaces directly to the caller
(`part_001` lines 389-392 `goto err`), so `rec_next` returns `-1` with
`errno = EINTR`, an error return at the component boundary. -/
theorem c9_transient_counterexample :
    recNext Mnone 2 1 (some rec0) st9 env9 =
      some (.err EINTR, some rec0,
        ⟨[0, 0, 0, 0], 0, 0, 0, false, 0, 0, [7]⟩, ⟨[], [], [true]⟩) ∧
    EINTR ≠ 0 := by
  constructor
  · decide
  · decide

/-- Claim C9 (amended): transient `EINTR`/`EAGAIN` read or write failures
surface out of `rec_next` as error returns (see the counterexample); it is
the *caller* — the sampling loop of `part_003`, lines 557-559 — that
retries, and it retries exactly on those two errnos. -/
theorem c9_caller_retries (e : ℤ) :
    mainDispatch (.err e) = .retry ↔ (e = EAGAIN ∨ e = EINTR) := by
  simp only [mainDispatch]
  by_cases h : e = EAGAIN ∨ e = EINTR
  · simp [h]
  · rw [if_neg h]
    by_cases h0 : e = 0
    · rw [if_pos h0]
      simp [h]
    · rw [if_neg h0]
      simp [h]

/-- Claim C10: `rec_next` is atomic with respect to its output record: with
a non-NULL record argument, every error or end-of-stream return (`-1`)
leaves the record exactly as it was passed in; the record is only written
on the success path. -/
theorem c10_rec_unchanged_on_error (M : Matcher) (fuel rfd : ℕ) (recIn : Rec)
    (st : SrcState) (env : Env) (e : ℤ) (rec2 : Option Rec) (st2 : SrcState)
    (env2 : Env)
    (h : recNext M fuel rfd (some recIn) st env =
      some (.err e, rec2, st2, env2)) :
    rec2 = some recIn := by
  simp only [recNext] at h
  split at h
  · exact Option.noConfusion h
  · simp only [Option.some.injEq, Prod.mk.injEq] at h
    exact h.2.1.symm
  · split at h
    · split at h
      · exact Option.noConfusion h
      · simp at h
      · simp at h
    · simp at h

/-- Witness for C10: a concrete erroring `rec_next` call (the scripted
`EINTR` read failure) leaves the passed record untouched. -/
theorem c10_rec_unchanged_on_error_witness :
    recNext Mnone 2 1 (some rec0) st9 env9 =
      some (.err EINTR, some rec0,
        ⟨[0, 0, 0, 0], 0, 0, 0, false, 0, 0, [7]⟩, ⟨[], [], [true]⟩) ∧
    (some rec0 : Option Rec) = some rec0 :=
  ⟨by decide,
   c10_rec_unchanged_on_error Mnone 2 1 rec0 st9 env9 EINTR (some rec0)
     ⟨[0, 0, 0, 0], 0, 0, 0, false, 0, 0, [7]⟩ ⟨[], [], [true]⟩ (by decide)⟩

end Randomize
